import Mathlib

/-!
# ELEC2645 electronics toolkit: numeric core

A shallow embedding of the numeric functions of `funcs.c` and the properties proved about them.

* `find_closest_e24_resistor` : nearest E24 standard value of a target resistance.
* `resistor_to_bands` : 4-band colour code of a resistance (two digits and a decade multiplier).
* `menu_item_1_decode` : the decoder formula of `menu_item_1`.
* `menu_item_4_trace` : the transient simulation of `menu_item_4`;
  `menu_item_4_auto_time` its automatic time window.
* `get_menu_selection` : the bounded integer prompt.
* `gain_search` : the resistor pair search of `menu_item_6`.

Conventions.  Unless a definition says otherwise `double` values are rationals and arithmetic is
exact; the definitions ending in `_f64` round every operation to binary64 (`fl64`), the
definitions ending in `_ops` take the rounded operations as parameters, and the definitions
ending in `_c` add NaN to the arguments.  `floor(log10(x))` is
`Int.log 10 x`, the greatest `k` with `10 ^ k ≤ x` (see `floor_log10_exact`); `pow(10, k)` is
`(10 : ℚ) ^ k`.  `int` values are integers; every counter of the embedded code stays far inside
the 32-bit range on `double` inputs (at most some 330 iterations of the normalisation loops).
The two `while` loops of `resistor_to_bands` take an iteration budget and answer `none` when it
runs out, so that termination is a statement about the budget and not an assumption.
Rational division by zero gives 0 where the C code gives an infinity or a NaN; the theorems
below are stated on inputs where no denominator is 0 (the resistance used by `menu_item_4` is
always positive, being a snapped value or the constant 0.1).
-/

/-! ## Definitions -/

/-! ### Standard value snapper (`funcs.c`, lines 12-15 and 137-157) -/

/-- Standard E24 resistor series base values. -/
def E24_BASE : List ℚ :=
  [1.0, 1.1, 1.2, 1.3, 1.5, 1.6, 1.8, 2.0, 2.2, 2.4, 2.7, 3.0,
   3.3, 3.6, 3.9, 4.3, 4.7, 5.1, 5.6, 6.2, 6.8, 7.5, 8.2, 9.1]

/-- Number of entries of `E24_BASE`. -/
def E24_COUNT : ℕ := E24_BASE.length

/-- Local variables of the scan loop of `find_closest_e24_resistor`. -/
structure ScanState where
  closest_base : ℚ
  min_diff : ℚ
  magnitude : ℚ

/-- The loop `for (i = 0; i < E24_COUNT; i++)` from index `i` on, over the entries not yet
visited.  The roll-over branch of the last index ends the loop (`break`). -/
def e24_scan (normalized_base : ℚ) : ℕ → List ℚ → ScanState → ScanState
  | _, [], s => s
  | i, e :: rest, s =>
    let diff := |normalized_base - e|
    let diff_next_decade := |normalized_base - 10|
    if i = E24_COUNT - 1 ∧ diff_next_decade < diff ∧ diff_next_decade < s.min_diff then
      { s with closest_base := 1, magnitude := s.magnitude * 10 }
    else
      e24_scan normalized_base (i + 1) rest
        (if diff < s.min_diff then { s with min_diff := diff, closest_base := e } else s)

/-- Core logic to find the closest E24 resistor value. -/
def find_closest_e24_resistor (target_r : ℚ) : ℚ :=
  if target_r ≤ 0 then 1
  else
    let exponent : ℤ := Int.log 10 target_r
    let magnitude : ℚ := (10 : ℚ) ^ exponent
    let normalized_base := target_r / magnitude
    let s := e24_scan normalized_base 0 E24_BASE
      { closest_base := E24_BASE.getD 0 0, min_diff := 1e9, magnitude := magnitude }
    s.closest_base * s.magnitude

/-- One ordinary iteration of the scan (the final `if` of the loop body); used to state the
loop invariant. -/
def e24_update (nb : ℚ) (s : ScanState) (e : ℚ) : ScanState :=
  if |nb - e| < s.min_diff then { s with min_diff := |nb - e|, closest_base := e } else s

/-! ### Colour band codec (`funcs.c`, lines 17-31, 159-194 and 307) -/

/-- C `round` on exact values: the nearest integer, halfway cases away from zero. -/
def c_round (v : ℚ) : ℤ := if 0 ≤ v then ⌊v + 1 / 2⌋ else ⌈v - 1 / 2⌉

/-- Result of `resistor_to_bands`: `unsupported` is the return value 0, `bands d1 d2 mult_idx` is
the return value 1 together with the three output parameters. -/
inductive BandResult where
  | unsupported : BandResult
  | bands (d1 d2 mult_idx : ℤ) : BandResult
deriving DecidableEq

/-- The loop `while (v >= 100.0) { v /= 10.0; exp++; }`; `none` when the iteration budget is
exhausted before the loop exits. -/
def norm_down : ℕ → ℚ → ℤ → Option (ℚ × ℤ)
  | 0, v, exp => if 100 ≤ v then none else some (v, exp)
  | fuel + 1, v, exp => if 100 ≤ v then norm_down fuel (v / 10) (exp + 1) else some (v, exp)

/-- The loop `while (v < 10.0) { v *= 10.0; exp--; }`. -/
def norm_up : ℕ → ℚ → ℤ → Option (ℚ × ℤ)
  | 0, v, exp => if v < 10 then none else some (v, exp)
  | fuel + 1, v, exp => if v < 10 then norm_up fuel (v * 10) (exp - 1) else some (v, exp)

/-- Lines 175-193 of `resistor_to_bands`: rounding, carry, digit split and range check. -/
def bands_of_normalised (v : ℚ) (exp : ℤ) : BandResult :=
  let two_digits := c_round v
  let carry : Bool := decide (100 ≤ two_digits)
  let two_digits := if carry then Int.tdiv two_digits 10 else two_digits
  let exp := if carry then exp + 1 else exp
  let first := Int.tdiv two_digits 10
  let second := Int.tmod two_digits 10
  if exp < 0 ∨ 6 < exp then BandResult.unsupported
  else BandResult.bands first second exp

/-- The encoder `resistor_to_bands`; `fuel` bounds the iterations of each `while` loop and
`none` means that the budget ran out. -/
def resistor_to_bands (fuel : ℕ) (r_ohms : ℚ) : Option BandResult :=
  if r_ohms ≤ 0 then some BandResult.unsupported
  else
    match norm_down fuel r_ohms 0 with
    | none => none
    | some (v1, exp1) =>
      match norm_up fuel v1 exp1 with
      | none => none
      | some (v, exp) => some (bands_of_normalised v exp)

/-- The decoder formula of `menu_item_1`: `((b1 * 10) + b2) * pow(10, mult_idx)`. -/
def menu_item_1_decode (b1 b2 mult_idx : ℤ) : ℚ :=
  (((b1 * 10 + b2 : ℤ) : ℚ)) * (10 : ℚ) ^ mult_idx

/-- Digit colour names. -/
def COLOUR_DIGITS : List String :=
  ["Black", "Brown", "Red", "Orange", "Yellow", "Green", "Blue", "Violet", "Grey", "White"]

/-- Multiplier colour names, `10^0` to `10^6` only. -/
def COLOUR_MULTIPLIERS : List String :=
  ["Black", "Brown", "Red", "Orange", "Yellow", "Green", "Blue"]

/-! ### Transient simulator (`funcs.c`, lines 476-486 and 510-560) -/

/-- State variables of the transient loop: capacitor voltage and inductor (loop) current. -/
structure SimState where
  vc : ℚ
  il : ℚ

/-- One recorded sample: `data_vc[i]`, `data_il[i]`, `data_ec[i]`, `data_el[i]`. -/
structure Sample where
  data_vc : ℚ
  data_il : ℚ
  data_ec : ℚ
  data_el : ℚ

/-- Number of recorded samples. -/
def SIM_STEPS : ℕ := 1000

/-- The `// Safety` lines of `menu_item_4`: returns the pair `(l, c)` after the two guards. -/
def menu_item_4_safety (type : ℤ) (l c : ℚ) : ℚ × ℚ :=
  let c := if type = 1 ∧ c ≤ 0 then 1e-6 else c
  let l := if type ≠ 1 ∧ l ≤ 0 then 1e-3 else l
  (l, c)

/-- Body of the inner loop `for (k = 0; k < 10; k++)`: one forward-Euler sub-step. -/
def euler_substep (type : ℤ) (vs r l c loop_dt : ℚ) (s : SimState) : SimState :=
  let v_r := s.il * r
  let v_c := if type = 2 then 0 else s.vc
  let v_l := vs - v_r - v_c
  if type = 1 then
    let il := (vs - s.vc) / r
    { il := il, vc := s.vc + (il / c) * loop_dt }
  else
    let d_il := v_l / l
    let il := s.il + d_il * loop_dt
    { il := il, vc := if type ≠ 2 then s.vc + (il / c) * loop_dt else s.vc }

/-- The inner loop: `k` sub-steps with `loop_dt = dt / 10`. -/
def euler_substeps (type : ℤ) (vs r l c dt : ℚ) : ℕ → SimState → SimState
  | 0, s => s
  | k + 1, s => euler_substeps type vs r l c dt k (euler_substep type vs r l c (dt / 10) s)

/-- The "Store Snapshot" block of the outer loop. -/
def snapshot (type : ℤ) (l c : ℚ) (s : SimState) : Sample :=
  { data_vc := s.vc
    data_il := s.il
    data_ec := if type = 2 then 0 else 0.5 * c * s.vc * s.vc
    data_el := if type = 1 then 0 else 0.5 * l * s.il * s.il }

/-- The outer loop `for (i = 0; i < SIM_STEPS; i++)`, with `n` iterations left: records the
snapshot, then runs the ten sub-steps. -/
def simulate_from (type : ℤ) (vs r l c dt : ℚ) : ℕ → SimState → List Sample
  | 0, _ => []
  | n + 1, s =>
    snapshot type l c s ::
      simulate_from type vs r l c dt n (euler_substeps type vs r l c dt 10 s)

/-- The simulation part of `menu_item_4` (section 3), from the values after the guards. -/
def menu_item_4_simulate (type : ℤ) (vs r l c t_total : ℚ) : List Sample :=
  let dt := t_total / SIM_STEPS
  simulate_from type vs r l c dt SIM_STEPS { vc := 0, il := 0 }

/-- The numeric path of `menu_item_4` from the entered values to the recorded trace: `r_target`,
`l_in`, `c_in` are the values typed at the prompts that the topology shows, `t_total` the total
time returned by the last prompt. -/
def menu_item_4_trace (type : ℤ) (vs r_target l_in c_in t_total : ℚ) : List Sample :=
  let r := if type ≠ 3 then find_closest_e24_resistor r_target else 0.1
  let l := if type ≠ 1 then l_in else 0
  let c := if type ≠ 2 then c_in else 0
  let lc := menu_item_4_safety type l c
  menu_item_4_simulate type vs r lc.1 lc.2 t_total

/-- Specification's wording of one sub-step: forward Euler with every derivative evaluated at the
state before the sub-step.  RC advances `v_C` (and reports the loop current), RL advances `i_L`,
LC and RLC advance both. -/
def forward_euler_step (type : ℤ) (vs r l c h : ℚ) (s : SimState) : SimState :=
  if type = 1 then { vc := s.vc + h * (vs - s.vc) / (r * c), il := (vs - s.vc) / r }
  else if type = 2 then { vc := s.vc, il := s.il + h * (vs - s.il * r) / l }
  else { vc := s.vc + h * s.il / c, il := s.il + h * (vs - s.il * r - s.vc) / l }

/-- The automatic time window of `menu_item_4` (section 2 of the function), from the values after
the guards.  `sqrt` and `M_PI` are the square root and the constant of the C library, taken as
parameters; the field is generic, so the definition reads on the rationals (the values of
`double`) and on the reals alike. -/
def menu_item_4_auto_time {K : Type} [LinearOrderedField K] (sqrt : K → K) (M_PI : K)
    (type : ℤ) (r l c : K) : K :=
  if type = 1 then 5 * r * c
  else if type = 2 then 5 * (l / r)
  else if type = 3 then 3 * (1 / (1 / (2 * M_PI * sqrt (l * c))))
  else if type = 4 then
    let alpha := r / (2 * l)
    let omega0 := 1 / sqrt (l * c)
    if alpha < omega0 then
      let t_total := 10 * (2 * M_PI / omega0)
      let t_decay := 5 / alpha
      if t_total > t_decay then t_decay else t_total
    else 10 / alpha
  else 0

/-- The default offered by the "Total Simulation Time" prompt, from the entered values. -/
def menu_item_4_default_time (sqrt : ℚ → ℚ) (M_PI : ℚ) (type : ℤ) (r_target l_in c_in : ℚ) : ℚ :=
  let r := if type ≠ 3 then find_closest_e24_resistor r_target else 0.1
  let l := if type ≠ 1 then l_in else 0
  let c := if type ≠ 2 then c_in else 0
  let lc := menu_item_4_safety type l c
  menu_item_4_auto_time sqrt M_PI type r lc.1 lc.2

/-- The recorded trace when the default total time is accepted at the prompt. -/
def menu_item_4_auto_trace (sqrt : ℚ → ℚ) (M_PI : ℚ) (type : ℤ) (vs r_target l_in c_in : ℚ) :
    List Sample :=
  menu_item_4_trace type vs r_target l_in c_in
    (menu_item_4_default_time sqrt M_PI type r_target l_in c_in)

/-! ### Menu selection (`funcs.c`, lines 124-134) -/

/-- C conversion `(int)d` on exact values: truncation toward zero. -/
def c_trunc (d : ℚ) : ℤ := if 0 ≤ d then ⌊d⌋ else ⌈d⌉

/-- One pass through the body of the `do ... while` loop of `get_menu_selection` for the numeric
input `d_val`: the value of `value` at the loop test. -/
def menu_selection_attempt (min max : ℤ) (d_val : ℚ) : ℤ :=
  let value := c_trunc d_val
  if d_val < (min : ℚ) - 0.0001 ∨ d_val > (max : ℚ) + 0.0001 then -1 else value

/-- The loop of `get_menu_selection` over the successive numeric inputs; `none` when the inputs
end before a value is returned. -/
def get_menu_selection (min max : ℤ) : List ℚ → Option ℤ
  | [] => none
  | d_val :: rest =>
    if menu_selection_attempt min max d_val = -1 then get_menu_selection min max rest
    else some (menu_selection_attempt min max d_val)

/-! ### Gain search of the op-amp designer (`funcs.c`, lines 669-722) -/

/-- Running best of the gain search of `menu_item_6`. -/
structure GainBest where
  best_error : ℚ
  best_r1 : ℚ
  best_r2 : ℚ
  best_act_gain : ℚ

/-- The decades tried for `R1`: 1k, 10k, 100k. -/
def multipliers : List ℚ := [1000.0, 10000.0, 100000.0]

/-- Body of the inner loop of the gain search for the candidate `r1`. -/
def gain_candidate (mode : ℤ) (target_gain : ℚ) (r1 : ℚ) (b : GainBest) : GainBest :=
  let r2_ideal := if mode = 1 then r1 * (target_gain - 1.0) else r1 * target_gain
  if r2_ideal ≤ 0 then b
  else
    let r2_std := find_closest_e24_resistor r2_ideal
    let act_gain := if mode = 1 then 1.0 + r2_std / r1 else r2_std / r1
    let error := |(act_gain - target_gain) / target_gain| * 100.0
    if error < b.best_error then
      { best_error := error, best_r1 := r1, best_r2 := r2_std, best_act_gain := act_gain }
    else b

/-- The gain search of `menu_item_6`: the two nested `for` loops, decades outside and mantissas
inside, from the initial values `best_error = 100`, `best_r1 = best_r2 = best_act_gain = 0`. -/
def gain_search (mode : ℤ) (target_gain : ℚ) : GainBest :=
  multipliers.foldl
    (fun b m => E24_BASE.foldl (fun b e => gain_candidate mode target_gain (e * m) b) b)
    { best_error := 100.0, best_r1 := 0, best_r2 := 0, best_act_gain := 0 }

/-- The gain designer up to the search: `none` is the validation error
"Non-inverting gain must be >= 1". -/
def menu_item_6_search (mode : ℤ) (target_gain : ℚ) : Option GainBest :=
  if target_gain < 1.0 ∧ mode = 1 then none else some (gain_search mode target_gain)

/-- The ideal `R2` of a candidate `r1` (used to state properties of the search). -/
def gain_ideal (mode : ℤ) (target_gain r1 : ℚ) : ℚ :=
  if mode = 1 then r1 * (target_gain - 1.0) else r1 * target_gain

/-- The record the search stores when the candidate `r1` becomes the best one. -/
def gain_eval (mode : ℤ) (target_gain r1 : ℚ) : GainBest :=
  { best_error :=
      |((if mode = 1 then 1.0 + find_closest_e24_resistor (gain_ideal mode target_gain r1) / r1
          else find_closest_e24_resistor (gain_ideal mode target_gain r1) / r1) - target_gain) /
        target_gain| * 100.0
    best_r1 := r1
    best_r2 := find_closest_e24_resistor (gain_ideal mode target_gain r1)
    best_act_gain :=
      if mode = 1 then 1.0 + find_closest_e24_resistor (gain_ideal mode target_gain r1) / r1
      else find_closest_e24_resistor (gain_ideal mode target_gain r1) / r1 }

/-- The 72 candidates for `R1` in scan order: decades 1k, 10k, 100k, ascending mantissa within a
decade. -/
def gain_r1_list : List ℚ :=
  multipliers.flatMap (fun m => E24_BASE.map (fun e => e * m))

/-! ### Arguments that are not numbers (NaN) -/

/-- A `double` argument: a finite value or NaN.  Infinities are not represented (on `+inf` the
first loop of `resistor_to_bands` does not terminate). -/
inductive CDouble where
  | finite (q : ℚ) : CDouble
  | nan : CDouble

/-- Lines 176-193 of `resistor_to_bands` from the converted integer `two_digits` on: carry, digit
split and range check. -/
def bands_of_two_digits (two_digits : ℤ) (exp : ℤ) : BandResult :=
  let carry : Bool := decide (100 ≤ two_digits)
  let two_digits := if carry then Int.tdiv two_digits 10 else two_digits
  let exp := if carry then exp + 1 else exp
  let first := Int.tdiv two_digits 10
  let second := Int.tmod two_digits 10
  if exp < 0 ∨ 6 < exp then BandResult.unsupported
  else BandResult.bands first second exp

/-- The function `find_closest_e24_resistor` on a `double` that may be NaN.  On NaN the guard
`target_r <= 0` is false, `exponent`, `magnitude` and `normalized_base` are NaN, no comparison of
the scan succeeds, so `closest_base` stays `E24_BASE[0]` and the result `1.0 * NaN` is NaN. -/
def find_closest_e24_resistor_c : CDouble → CDouble
  | CDouble.finite q => CDouble.finite (find_closest_e24_resistor q)
  | CDouble.nan => CDouble.nan

/-- The function `resistor_to_bands` on a `double` that may be NaN.  On NaN every comparison is
false: the guard `r_ohms <= 0.0` is not taken, the tests `v >= 100.0` and `v < 10.0` end both
loops at once with `exp = 0`, and `two_digits = (int)round(v)` is the conversion of NaN to `int`,
which C leaves undefined: `nan_to_int` is the value the platform gives (`INT_MIN` with the x86-64
conversion instruction). -/
def resistor_to_bands_c (fuel : ℕ) (nan_to_int : ℤ) : CDouble → Option BandResult
  | CDouble.finite q => resistor_to_bands fuel q
  | CDouble.nan => some (bands_of_two_digits nan_to_int 0)

/-! ### Sub-step of the simulator as performed by the code -/

/-- Wording of the sub-step as the code performs it: RC and RL take a forward-Euler step; LC and
RLC advance the current by forward Euler and then the voltage with the advanced current. -/
def semi_implicit_euler_step (type : ℤ) (vs r l c h : ℚ) (s : SimState) : SimState :=
  if type = 1 then { vc := s.vc + h * (vs - s.vc) / (r * c), il := (vs - s.vc) / r }
  else if type = 2 then { vc := s.vc, il := s.il + h * (vs - s.il * r) / l }
  else
    { vc := s.vc + h * (s.il + h * (vs - s.il * r - s.vc) / l) / c
      il := s.il + h * (vs - s.il * r - s.vc) / l }

/-! ### Gain search over arbitrary rounding of the arithmetic -/

/-- The `double` operations used by the gain search, as parameters: any rounding of the four
arithmetic operations and any implementation of `find_closest_e24_resistor` (`snap`).  `fabs`
and the comparisons are exact on `double` values and are not parameters. -/
structure DoubleOps where
  add : ℚ → ℚ → ℚ
  sub : ℚ → ℚ → ℚ
  mul : ℚ → ℚ → ℚ
  div : ℚ → ℚ → ℚ
  snap : ℚ → ℚ

/-- Exact arithmetic with the exact snapper. -/
def exact_ops : DoubleOps :=
  { add := fun a b => a + b
    sub := fun a b => a - b
    mul := fun a b => a * b
    div := fun a b => a / b
    snap := find_closest_e24_resistor }

/-- Body of the inner loop of the gain search over the operations `ops`. -/
def gain_candidate_ops (ops : DoubleOps) (mode : ℤ) (target_gain : ℚ) (r1 : ℚ) (b : GainBest) :
    GainBest :=
  let r2_ideal :=
    if mode = 1 then ops.mul r1 (ops.sub target_gain 1.0) else ops.mul r1 target_gain
  if r2_ideal ≤ 0 then b
  else
    let r2_std := ops.snap r2_ideal
    let act_gain := if mode = 1 then ops.add 1.0 (ops.div r2_std r1) else ops.div r2_std r1
    let error := ops.mul |ops.div (ops.sub act_gain target_gain) target_gain| 100.0
    if error < b.best_error then
      { best_error := error, best_r1 := r1, best_r2 := r2_std, best_act_gain := act_gain }
    else b

/-- The gain search of `menu_item_6` over the operations `ops` and the stored mantissa table. -/
def gain_search_ops (ops : DoubleOps) (table : List ℚ) (mode : ℤ) (target_gain : ℚ) : GainBest :=
  multipliers.foldl
    (fun b m => table.foldl
      (fun b e => gain_candidate_ops ops mode target_gain (ops.mul e m) b) b)
    { best_error := 100.0, best_r1 := 0, best_r2 := 0, best_act_gain := 0 }

/-- The ideal `R2` of a candidate over `ops`. -/
def gain_ideal_ops (ops : DoubleOps) (mode : ℤ) (target_gain r1 : ℚ) : ℚ :=
  if mode = 1 then ops.mul r1 (ops.sub target_gain 1.0) else ops.mul r1 target_gain

/-- The record the search stores for a candidate over `ops`. -/
def gain_eval_ops (ops : DoubleOps) (mode : ℤ) (target_gain r1 : ℚ) : GainBest :=
  { best_error :=
      ops.mul |ops.div (ops.sub
        (if mode = 1 then ops.add 1.0 (ops.div (ops.snap (gain_ideal_ops ops mode target_gain r1)) r1)
          else ops.div (ops.snap (gain_ideal_ops ops mode target_gain r1)) r1)
        target_gain) target_gain| 100.0
    best_r1 := r1
    best_r2 := ops.snap (gain_ideal_ops ops mode target_gain r1)
    best_act_gain :=
      if mode = 1 then ops.add 1.0 (ops.div (ops.snap (gain_ideal_ops ops mode target_gain r1)) r1)
      else ops.div (ops.snap (gain_ideal_ops ops mode target_gain r1)) r1 }

/-- The candidates for `R1` in scan order over `ops`: decades outside, table entries inside. -/
def gain_r1_list_ops (ops : DoubleOps) (table : List ℚ) : List ℚ :=
  multipliers.flatMap (fun m => table.map (fun e => ops.mul e m))

/-! ### Binary64 arithmetic -/

/-- Number of divisions by ten that bring `n` below 10: the floor of the decimal logarithm of
`n ≥ 1` (the first argument bounds the recursion). -/
def nat_log10_fuel : ℕ → ℕ → ℕ
  | 0, _ => 0
  | fuel + 1, n => if n < 10 then 0 else nat_log10_fuel fuel (n / 10) + 1

/-- Floor of the decimal logarithm of a positive rational, from the digit counts of its numerator
and denominator: the value of `floor(log10(x))` when `log10` is exact. -/
def floor_log10 (x : ℚ) : ℤ :=
  let e0 : ℤ :=
    (nat_log10_fuel x.num.natAbs x.num.natAbs : ℤ) - (nat_log10_fuel x.den x.den : ℤ)
  if (10 : ℚ) ^ e0 ≤ x then e0 else e0 - 1

/-- Number of halvings that bring `n` below 2: the floor of the binary logarithm of `n ≥ 1`
(the first argument bounds the recursion). -/
def nat_log2_fuel : ℕ → ℕ → ℕ
  | 0, _ => 0
  | fuel + 1, n => if n < 2 then 0 else nat_log2_fuel fuel (n / 2) + 1

/-- Floor of the binary logarithm of a nonzero rational, from the bit lengths of its numerator
and denominator. -/
def log2_floor (x : ℚ) : ℤ :=
  let e0 : ℤ := (nat_log2_fuel x.num.natAbs x.num.natAbs : ℤ) - (nat_log2_fuel x.den x.den : ℤ)
  if (2 : ℚ) ^ e0 ≤ |x| then e0 else e0 - 1

/-- Nearest integer, halfway cases to the even neighbour. -/
def round_half_even (q : ℚ) : ℤ :=
  let f := ⌊q⌋
  let r := q - f
  if r < 1 / 2 then f else if 1 / 2 < r then f + 1 else if f % 2 = 0 then f else f + 1

/-- Rounding of an exact value to IEEE 754 binary64 (53-bit significand, round to nearest, ties
to even, gradual underflow below `2 ^ (-1022)`); overflow is not represented. -/
def fl64 (x : ℚ) : ℚ :=
  if x = 0 then 0
  else
    let e := max (log2_floor x) (-1022)
    let ulp : ℚ := 2 ^ (e - 52)
    (round_half_even (x / ulp) : ℚ) * ulp

/-- The table `E24_BASE` as stored: each decimal constant rounded to binary64. -/
def E24_BASE_f64 : List ℚ := E24_BASE.map fl64

/-- The scan loop of `find_closest_e24_resistor` with every `double` operation rounded. -/
def e24_scan_f64 (normalized_base : ℚ) : ℕ → List ℚ → ScanState → ScanState
  | _, [], s => s
  | i, e :: rest, s =>
    let diff := |fl64 (normalized_base - e)|
    let diff_next_decade := |fl64 (normalized_base - 10)|
    if i = E24_COUNT - 1 ∧ diff_next_decade < diff ∧ diff_next_decade < s.min_diff then
      { s with closest_base := 1, magnitude := fl64 (s.magnitude * 10) }
    else
      e24_scan_f64 normalized_base (i + 1) rest
        (if diff < s.min_diff then { s with min_diff := diff, closest_base := e } else s)

/-- The function `find_closest_e24_resistor` on a finite `double`, with binary64 rounding of
every arithmetic operation; `pow(10, exponent)` is the correctly rounded power and
`floor(log10(x))` the exact floor (the two agree except for `x` within rounding of a power of
ten). -/
def find_closest_e24_resistor_f64 (target_r : ℚ) : ℚ :=
  if target_r ≤ 0 then 1
  else
    let exponent : ℤ := floor_log10 target_r
    let magnitude : ℚ := fl64 ((10 : ℚ) ^ exponent)
    let normalized_base := fl64 (target_r / magnitude)
    let s := e24_scan_f64 normalized_base 0 E24_BASE_f64
      { closest_base := E24_BASE_f64.getD 0 0, min_diff := 1e9, magnitude := magnitude }
    fl64 (s.closest_base * s.magnitude)

/-- The operations of the gain search in binary64 arithmetic. -/
def f64_ops : DoubleOps :=
  { add := fun a b => fl64 (a + b)
    sub := fun a b => fl64 (a - b)
    mul := fun a b => fl64 (a * b)
    div := fun a b => fl64 (a / b)
    snap := find_closest_e24_resistor_f64 }

/-! ## Theorems -/

/-! ### Standard value snapper -/

theorem e24_scan_init_last (nb : ℚ) (l : List ℚ) (e : ℚ) :
    ∀ (i : ℕ) (s : ScanState), i + l.length = E24_COUNT - 1 →
      e24_scan nb i (l ++ [e]) s =
        if |nb - 10| < |nb - e| ∧ |nb - 10| < (l.foldl (e24_update nb) s).min_diff then
          { (l.foldl (e24_update nb) s) with
              closest_base := 1, magnitude := (l.foldl (e24_update nb) s).magnitude * 10 }
        else e24_update nb (l.foldl (e24_update nb) s) e := by
  induction l with
  | nil =>
    intro i s h
    simp only [List.length_nil, Nat.add_zero] at h
    simp [e24_scan, h, e24_update]
  | cons a l ih =>
    intro i s h
    simp only [List.length_cons] at h
    have hi : i ≠ E24_COUNT - 1 := by omega
    simp only [List.cons_append, e24_scan, hi, false_and, if_false, List.foldl_cons]
    exact ih (i + 1) _ (by omega)

theorem e24_fold_spec (nb : ℚ) (l : List ℚ) :
    ∀ s : ScanState, l.Pairwise (· < ·) → (∀ e ∈ l, s.closest_base < e) →
      |nb - s.closest_base| = s.min_diff →
      (l.foldl (e24_update nb) s).magnitude = s.magnitude ∧
      ((l.foldl (e24_update nb) s).closest_base = s.closest_base ∨
        (l.foldl (e24_update nb) s).closest_base ∈ l) ∧
      |nb - (l.foldl (e24_update nb) s).closest_base| = (l.foldl (e24_update nb) s).min_diff ∧
      (l.foldl (e24_update nb) s).min_diff ≤ s.min_diff ∧
      ((l.foldl (e24_update nb) s).min_diff = s.min_diff →
        (l.foldl (e24_update nb) s).closest_base = s.closest_base) ∧
      (∀ e ∈ l, (l.foldl (e24_update nb) s).min_diff ≤ |nb - e|) ∧
      (∀ e ∈ l, |nb - e| = (l.foldl (e24_update nb) s).min_diff →
        (l.foldl (e24_update nb) s).closest_base ≤ e) := by
  induction l with
  | nil => intro s _ _ h; simp [h]
  | cons a l ih =>
    intro s hp hlt h0
    rw [List.pairwise_cons] at hp
    obtain ⟨hal, hp⟩ := hp
    simp only [List.foldl_cons]
    by_cases hd : |nb - a| < s.min_diff
    · have hu : e24_update nb s a = { s with min_diff := |nb - a|, closest_base := a } := by
        simp [e24_update, hd]
      rw [hu]
      obtain ⟨h1, h2, h3, h4, h5, h6, h7⟩ :=
        ih { s with min_diff := |nb - a|, closest_base := a } hp hal rfl
      simp only at h1 h2 h4 h5
      refine ⟨h1, ?_, h3, by linarith, ?_, ?_, ?_⟩
      · rcases h2 with h2 | h2
        · right; rw [h2]; exact List.mem_cons_self _ _
        · right; exact List.mem_cons_of_mem _ h2
      · intro hc; exfalso; linarith
      · intro e he
        rcases List.mem_cons.mp he with rfl | he
        · exact h4
        · exact h6 e he
      · intro e he heq
        rcases List.mem_cons.mp he with rfl | he
        · exact le_of_eq (h5 heq.symm)
        · exact h7 e he heq
    · have hu : e24_update nb s a = s := by simp [e24_update, hd]
      rw [hu]
      obtain ⟨h1, h2, h3, h4, h5, h6, h7⟩ := ih s hp
        (fun e he => hlt e (List.mem_cons_of_mem _ he)) h0
      refine ⟨h1, ?_, h3, h4, h5, ?_, ?_⟩
      · rcases h2 with h2 | h2
        · left; exact h2
        · right; exact List.mem_cons_of_mem _ h2
      · intro e he
        rcases List.mem_cons.mp he with rfl | he
        · push_neg at hd; linarith
        · exact h6 e he
      · intro e he heq
        rcases List.mem_cons.mp he with rfl | he
        · push_neg at hd
          have : (l.foldl (e24_update nb) s).min_diff = s.min_diff := by linarith
          rw [h5 this]
          exact le_of_lt (hlt e (List.mem_cons_self _ _))
        · exact h7 e he heq

theorem E24_BASE_split :
    E24_BASE = 1 :: ([11/10, 12/10, 13/10, 15/10, 16/10, 18/10, 2, 22/10, 24/10, 27/10, 3,
      33/10, 36/10, 39/10, 43/10, 47/10, 51/10, 56/10, 62/10, 68/10, 75/10, 82/10] ++ [91/10]) := by
  norm_num [E24_BASE]

theorem E24_BASE_sorted : E24_BASE.Pairwise (· < ·) := by
  rw [← List.chain'_iff_pairwise, E24_BASE_split]
  simp only [List.cons_append, List.nil_append, List.chain'_cons, List.chain'_singleton, and_true]
  norm_num

theorem E24_BASE_bounds : ∀ e ∈ E24_BASE, 1 ≤ e ∧ e < 10 := by
  intro e he
  rw [E24_BASE_split] at he
  simp only [List.mem_cons, List.mem_append, List.mem_singleton, List.not_mem_nil, or_false] at he
  rcases he with h | (h | h | h | h | h | h | h | h | h | h | h | h | h | h | h | h | h | h | h
    | h | h | h) | h <;> subst h <;> norm_num

theorem E24_COUNT_eq : E24_COUNT = 24 := rfl

/-- The decade of a positive target: `10 ^ k ≤ x < 10 ^ (k + 1)` for `k = ⌊log10 x⌋`. -/
theorem decade_bounds (x : ℚ) (hx : 0 < x) :
    (0 : ℚ) < 10 ^ Int.log 10 x ∧ (10 : ℚ) ^ Int.log 10 x ≤ x ∧
      x < 10 ^ Int.log 10 x * 10 := by
  have h1 := Int.zpow_log_le_self (b := 10) (r := x) (by norm_num) hx
  have h2 := Int.lt_zpow_succ_log_self (b := 10) (by norm_num) x
  rw [zpow_add_one₀ (by norm_num)] at h2
  push_cast at h1 h2
  exact ⟨by positivity, h1, h2⟩

theorem normalized_bounds (x : ℚ) (hx : 0 < x) :
    1 ≤ x / 10 ^ Int.log 10 x ∧ x / 10 ^ Int.log 10 x < 10 := by
  obtain ⟨hM, h1, h2⟩ := decade_bounds x hx
  exact ⟨by rw [le_div_iff₀ hM]; linarith, by rw [div_lt_iff₀ hM]; linarith⟩

/-- Characterisation of the scan: either the result stays in the decade of the target, with the
first nearest mantissa, or it rolls over to `1.0` times the next decade, which then is strictly
nearer than every mantissa of the decade. -/
theorem find_closest_cases (x : ℚ) (hx : 0 < x) :
    (∃ c ∈ E24_BASE, find_closest_e24_resistor x = c * 10 ^ Int.log 10 x ∧
        (∀ e ∈ E24_BASE, |x / 10 ^ Int.log 10 x - c| ≤ |x / 10 ^ Int.log 10 x - e|) ∧
        (∀ e ∈ E24_BASE, |x / 10 ^ Int.log 10 x - e| = |x / 10 ^ Int.log 10 x - c| → c ≤ e) ∧
        |x / 10 ^ Int.log 10 x - c| ≤ |x / 10 ^ Int.log 10 x - 10|) ∨
    (find_closest_e24_resistor x = 1 * (10 ^ Int.log 10 x * 10) ∧
        ∀ e ∈ E24_BASE, |x / 10 ^ Int.log 10 x - 10| < |x / 10 ^ Int.log 10 x - e|) := by
  obtain ⟨hn1, hn10⟩ := normalized_bounds x hx
  have hsorted := E24_BASE_sorted
  have hmemE : ∀ e, e ∈ E24_BASE ↔ e ∈ (1 : ℚ) :: ([11/10, 12/10, 13/10, 15/10, 16/10, 18/10, 2,
      22/10, 24/10, 27/10, 3, 33/10, 36/10, 39/10, 43/10, 47/10, 51/10, 56/10, 62/10, 68/10,
      75/10, 82/10] ++ [91/10]) := by intro e; rw [← E24_BASE_split]
  rw [E24_BASE_split] at hsorted
  simp only [find_closest_e24_resistor, not_le.mpr hx, if_false]
  generalize x / 10 ^ Int.log 10 x = nb at hn1 hn10 ⊢
  generalize (10 : ℚ) ^ Int.log 10 x = M
  have hhead : E24_BASE.getD 0 0 = 1 := by norm_num [E24_BASE]
  simp only [hmemE]
  rw [hhead, E24_BASE_split]
  generalize hmid : ([11/10, 12/10, 13/10, 15/10, 16/10, 18/10, 2, 22/10, 24/10, 27/10, 3,
      33/10, 36/10, 39/10, 43/10, 47/10, 51/10, 56/10, 62/10, 68/10, 75/10, 82/10] : List ℚ) = mid
    at hsorted ⊢
  have hlen : mid.length = 22 := by rw [← hmid]; rfl
  clear hmid
  rw [List.pairwise_cons, List.pairwise_append] at hsorted
  obtain ⟨hone, hmidp, -, hlast⟩ := hsorted
  have h1e9 : |nb - 1| < (1e9 : ℚ) := by
    rw [abs_of_nonneg (by linarith)]; norm_num; linarith
  have hfirst : e24_scan nb 0 (1 :: (mid ++ [91/10])) ⟨1, 1e9, M⟩ =
      e24_scan nb 1 (mid ++ [91/10]) ⟨1, |nb - 1|, M⟩ := by
    simp [e24_scan, E24_COUNT_eq, h1e9]
  rw [hfirst, e24_scan_init_last nb mid (91/10) 1 _ (by rw [E24_COUNT_eq, hlen])]
  obtain ⟨f1, f2, f3, f4, f5, f6, f7⟩ := e24_fold_spec nb mid ⟨1, |nb - 1|, M⟩ hmidp
    (fun e he => hone e (List.mem_append_left _ he)) rfl
  simp only at f1 f2 f4 f5
  generalize List.foldl (e24_update nb) ⟨1, |nb - 1|, M⟩ mid = s' at f1 f2 f3 f4 f5 f6 f7 ⊢
  by_cases hroll : |nb - 10| < |nb - 91/10| ∧ |nb - 10| < s'.min_diff
  · right
    rw [if_pos hroll]
    refine ⟨by simp [f1], ?_⟩
    intro e he
    rcases List.mem_cons.mp he with rfl | he
    · linarith [hroll.2]
    · rcases List.mem_append.mp he with he | he
      · linarith [hroll.2, f6 e he]
      · rw [List.mem_singleton.mp he]; exact hroll.1
  · left
    rw [if_neg hroll]
    by_cases hd : |nb - 91/10| < s'.min_diff
    · have hu : e24_update nb s' (91/10) = { s' with min_diff := |nb - 91/10|, closest_base := 91/10 } := by
        simp [e24_update, hd]
      rw [hu]
      refine ⟨91/10, by simp, by simp [f1], ?_, ?_, ?_⟩
      · intro e he
        rcases List.mem_cons.mp he with rfl | he
        · linarith
        · rcases List.mem_append.mp he with he | he
          · linarith [f6 e he]
          · rw [List.mem_singleton.mp he]
      · intro e he heq
        rcases List.mem_cons.mp he with rfl | he
        · exfalso; linarith
        · rcases List.mem_append.mp he with he | he
          · exfalso; linarith [f6 e he]
          · rw [List.mem_singleton.mp he]
      · by_contra hc
        exact hroll ⟨by linarith, by linarith⟩
    · have hu : e24_update nb s' (91/10) = s' := by simp [e24_update, hd]
      rw [hu]
      push_neg at hd
      have hcm : s'.closest_base ∈ (1 : ℚ) :: (mid ++ [91/10]) := by
        rcases f2 with h | h
        · rw [h]; exact List.mem_cons_self _ _
        · exact List.mem_cons_of_mem _ (List.mem_append_left _ h)
      refine ⟨s'.closest_base, hcm, by rw [f1], ?_, ?_, ?_⟩
      · intro e he
        rw [f3]
        rcases List.mem_cons.mp he with rfl | he
        · exact f4
        · rcases List.mem_append.mp he with he | he
          · exact f6 e he
          · rw [List.mem_singleton.mp he]; exact hd
      · intro e he heq
        rw [f3] at heq
        rcases List.mem_cons.mp he with rfl | he
        · exact le_of_eq (f5 heq.symm)
        · rcases List.mem_append.mp he with he | he
          · exact f7 e he heq
          · rw [List.mem_singleton.mp he]
            rcases f2 with h | h
            · rw [h]; norm_num
            · exact le_of_lt (hlast _ h _ (List.mem_singleton_self _))
      · rw [f3]
        by_contra hc
        push_neg at hc
        exact hroll ⟨by linarith, hc⟩

theorem abs_scaled (c M x : ℚ) (hM : 0 < M) : |c * M - x| = M * |x / M - c| := by
  have h : c * M - x = M * (c - x / M) := by field_simp
  rw [h, abs_mul, abs_of_pos hM, abs_sub_comm]

/-- Distance facts shared by the two branches of the scan. -/
theorem find_closest_dist (x : ℚ) (hx : 0 < x) :
    |find_closest_e24_resistor x - x| ≤ x - 10 ^ Int.log 10 x ∧
    |find_closest_e24_resistor x - x| ≤ 10 ^ Int.log 10 x * 10 - x ∧
    find_closest_e24_resistor x ≤ 10 ^ Int.log 10 x * 10 := by
  obtain ⟨hM, hlo, hhi⟩ := decade_bounds x hx
  obtain ⟨hn1, hn10⟩ := normalized_bounds x hx
  have hone : (1 : ℚ) ∈ E24_BASE := by rw [E24_BASE_split]; exact List.mem_cons_self _ _
  have e1 : (10 : ℚ) ^ Int.log 10 x * |x / 10 ^ Int.log 10 x - 1| = x - 10 ^ Int.log 10 x := by
    rw [abs_of_nonneg (by linarith)]; field_simp
  have e10 : (10 : ℚ) ^ Int.log 10 x * |x / 10 ^ Int.log 10 x - 10| =
      10 ^ Int.log 10 x * 10 - x := by
    rw [abs_of_neg (by linarith)]; field_simp
  rcases find_closest_cases x hx with ⟨c, hc, hr, hmin, -, hten⟩ | ⟨hr, hlt⟩
  · rw [hr, abs_scaled c _ x hM]
    refine ⟨?_, ?_, ?_⟩
    · rw [← e1]; exact mul_le_mul_of_nonneg_left (hmin 1 hone) hM.le
    · rw [← e10]; exact mul_le_mul_of_nonneg_left hten hM.le
    · rw [mul_comm]
      exact mul_le_mul_of_nonneg_left (E24_BASE_bounds c hc).2.le hM.le
  · rw [hr, one_mul, abs_of_pos (by linarith)]
    refine ⟨?_, le_refl _, le_refl _⟩
    rw [← e1, ← e10]
    exact mul_le_mul_of_nonneg_left (hlt 1 hone).le hM.le

/-- The decade of `c * 10 ^ j` for a mantissa `1 ≤ c < 10` is `j`. -/
theorem log_mantissa_mul (c : ℚ) (j : ℤ) (h1 : 1 ≤ c) (h10 : c < 10) :
    Int.log 10 (c * 10 ^ j) = j := by
  have hj : (0 : ℚ) < 10 ^ j := by positivity
  have hpos : 0 < c * 10 ^ j := by positivity
  apply le_antisymm
  · have := (Int.lt_zpow_iff_log_lt (b := 10) (by norm_num) (x := j + 1) hpos).mp (by
      rw [zpow_add_one₀ (by norm_num)]; push_cast; nlinarith)
    omega
  · exact (Int.zpow_le_iff_le_log (b := 10) (by norm_num) hpos).mp (by push_cast; nlinarith)

/-- Every series value is a fixed point of the scan. -/
theorem find_closest_fixed (c : ℚ) (hc : c ∈ E24_BASE) (j : ℤ) :
    find_closest_e24_resistor (c * 10 ^ j) = c * 10 ^ j := by
  obtain ⟨h1, h10⟩ := E24_BASE_bounds c hc
  have hj : (0 : ℚ) < 10 ^ j := by positivity
  have hpos : 0 < c * 10 ^ j := by positivity
  have hlog := log_mantissa_mul c j h1 h10
  have hnb : c * 10 ^ j / 10 ^ j = c := by field_simp
  rcases find_closest_cases _ hpos with ⟨d, hd, hr, hmin, -, -⟩ | ⟨-, hlt⟩
  · rw [hlog] at hr hmin
    rw [hnb] at hmin
    have h0 := hmin c hc
    rw [sub_self, abs_zero] at h0
    have : c - d = 0 := abs_eq_zero.mp (le_antisymm h0 (abs_nonneg _))
    have hdc : d = c := by linarith
    rw [hr, hdc]
  · rw [hlog, hnb] at hlt
    have h0 := hlt c hc
    rw [sub_self, abs_zero] at h0
    exact absurd h0 (not_lt.mpr (abs_nonneg _))

/-- C2: `find_closest_e24_resistor` is idempotent on positive targets. -/
theorem find_closest_idempotent (x : ℚ) (hx : 0 < x) :
    find_closest_e24_resistor (find_closest_e24_resistor x) = find_closest_e24_resistor x := by
  have hone : (1 : ℚ) ∈ E24_BASE := by rw [E24_BASE_split]; exact List.mem_cons_self _ _
  rcases find_closest_cases x hx with ⟨c, hc, hr, -, -, -⟩ | ⟨hr, -⟩
  · rw [hr]; exact find_closest_fixed c hc _
  · rw [hr, ← zpow_add_one₀ (by norm_num)]; exact find_closest_fixed 1 hone _

theorem find_closest_idempotent_witness :
    (0 : ℚ) < 4835 ∧
    find_closest_e24_resistor (find_closest_e24_resistor 4835) = find_closest_e24_resistor 4835 :=
  ⟨by norm_num, find_closest_idempotent 4835 (by norm_num)⟩

theorem log_4835 : Int.log 10 (4835 : ℚ) = 3 := by
  have h := log_mantissa_mul (4835 / 1000) 3 (by norm_num) (by norm_num)
  norm_num at h
  exact h

/-- The two tie examples of the snapper, evaluated: mantissa 1.05 gives 1.0 and mantissa 9.55
stays at 9.1. -/
theorem find_closest_tie_examples :
    find_closest_e24_resistor (21 / 20) = 1 ∧ find_closest_e24_resistor (191 / 20) = 91 / 10 := by
  have h1 : Int.log 10 (21 / 20 : ℚ) = 0 := by
    simpa using log_mantissa_mul (21 / 20) 0 (by norm_num) (by norm_num)
  have h2 : Int.log 10 (191 / 20 : ℚ) = 0 := by
    simpa using log_mantissa_mul (191 / 20) 0 (by norm_num) (by norm_num)
  constructor
  · simp only [find_closest_e24_resistor, h1, E24_BASE, e24_scan, E24_COUNT, List.length,
      List.getD_cons_zero]
    norm_num [abs_eq_max_neg]
  · simp only [find_closest_e24_resistor, h2, E24_BASE, e24_scan, E24_COUNT, List.length,
      List.getD_cons_zero]
    norm_num [abs_eq_max_neg]

/-- The model of `floor(log10(x))` agrees with the real logarithm: for a positive rational `x`,
`⌊log₁₀ x⌋ = Int.log 10 x`. -/
theorem floor_log10_exact (x : ℚ) (hx : 0 < x) :
    ⌊Real.logb 10 (x : ℝ)⌋ = Int.log 10 x := by
  have hxr : (0 : ℝ) < (x : ℝ) := by exact_mod_cast hx
  have h := Real.floor_logb_natCast (b := 10) (r := (x : ℝ)) hxr.le
  push_cast at h
  rw [h]
  obtain ⟨-, hlo, hhi⟩ := decade_bounds x hx
  apply le_antisymm
  · have h1 := Int.zpow_log_le_self (b := 10) (r := (x : ℝ)) (by norm_num) hxr
    have h2 : ((10 : ℚ) ^ Int.log 10 (x : ℝ)) ≤ x := by
      have : (((10 : ℚ) ^ Int.log 10 (x : ℝ) : ℚ) : ℝ) ≤ (x : ℝ) := by push_cast; exact_mod_cast h1
      exact_mod_cast this
    exact (Int.zpow_le_iff_le_log (b := 10) (by norm_num) hx).mp (by exact_mod_cast h2)
  · have h2 : (((10 : ℚ) ^ Int.log 10 x : ℚ) : ℝ) ≤ (x : ℝ) := by exact_mod_cast hlo
    exact (Int.zpow_le_iff_le_log (b := 10) (by norm_num) hxr).mp (by push_cast at h2 ⊢; exact h2)

/-- C8: for every target `≤ 0` (zero and every negative value) the function returns `1.0`; the
guard is the first statement, before the logarithm is taken. -/
theorem find_closest_nonpositive (target_r : ℚ) (h : target_r ≤ 0) :
    find_closest_e24_resistor target_r = 1 := by
  unfold find_closest_e24_resistor
  rw [if_pos h]

theorem find_closest_nonpositive_witness :
    (-5 : ℚ) ≤ 0 ∧ find_closest_e24_resistor (-5) = 1 :=
  ⟨by norm_num, find_closest_nonpositive (-5) (by norm_num)⟩

/-! ### Colour band codec -/

theorem norm_down_exit (fuel : ℕ) (v : ℚ) (exp : ℤ) (h : v < 100) :
    norm_down fuel v exp = some (v, exp) := by
  cases fuel <;> simp [norm_down, not_le.mpr h]

theorem norm_up_exit (fuel : ℕ) (v : ℚ) (exp : ℤ) (h : 10 ≤ v) :
    norm_up fuel v exp = some (v, exp) := by
  cases fuel <;> simp [norm_up, not_lt.mpr h]

/-- The first loop divides `v * 10 ^ n` down to `v` in `n` iterations. -/
theorem norm_down_pow (n : ℕ) : ∀ (fuel : ℕ) (v : ℚ) (exp : ℤ), n ≤ fuel → 10 ≤ v → v < 100 →
    norm_down fuel (v * 10 ^ n) exp = some (v, exp + n) := by
  induction n with
  | zero => intro fuel v exp _ _ h; simpa using norm_down_exit fuel v exp h
  | succ n ih =>
    intro fuel v exp hf h10 h100
    obtain ⟨f, rfl⟩ : ∃ f, fuel = f + 1 := ⟨fuel - 1, by omega⟩
    have hp : (1 : ℚ) ≤ 10 ^ n := one_le_pow₀ (by norm_num)
    have hge : (100 : ℚ) ≤ v * 10 ^ (n + 1) := by rw [pow_succ]; nlinarith
    have hdiv : v * 10 ^ (n + 1) / 10 = v * 10 ^ n := by rw [pow_succ]; field_simp; ring
    rw [norm_down, if_pos hge, hdiv, ih f v (exp + 1) (by omega) h10 h100]
    push_cast
    rw [add_assoc, add_comm 1 (n : ℤ)]

/-- The second loop multiplies `v / 10 ^ n` up to `v` in `n` iterations. -/
theorem norm_up_pow (n : ℕ) : ∀ (fuel : ℕ) (v : ℚ) (exp : ℤ), n ≤ fuel → 10 ≤ v → v < 100 →
    norm_up fuel (v / 10 ^ n) exp = some (v, exp - n) := by
  induction n with
  | zero => intro fuel v exp _ h _; simpa using norm_up_exit fuel v exp h
  | succ n ih =>
    intro fuel v exp hf h10 h100
    obtain ⟨f, rfl⟩ : ∃ f, fuel = f + 1 := ⟨fuel - 1, by omega⟩
    have hp : (1 : ℚ) ≤ 10 ^ n := one_le_pow₀ (by norm_num)
    have hp0 : (0 : ℚ) < 10 ^ n := by positivity
    have hlt : v / 10 ^ (n + 1) < 10 := by
      rw [div_lt_iff₀ (by positivity), pow_succ]; nlinarith
    have hmul : v / 10 ^ (n + 1) * 10 = v / 10 ^ n := by rw [pow_succ]; field_simp; ring
    rw [norm_up, if_pos hlt, hmul, ih f v (exp - 1) (by omega) h10 h100]
    push_cast
    rw [sub_sub, add_comm 1 (n : ℤ)]

theorem norm_down_mono : ∀ (fuel : ℕ) (v : ℚ) (exp : ℤ) (p : ℚ × ℤ),
    norm_down fuel v exp = some p → ∀ fuel', fuel ≤ fuel' → norm_down fuel' v exp = some p := by
  intro fuel
  induction fuel with
  | zero =>
    intro v exp p h fuel' _
    by_cases hv : 100 ≤ v
    · simp [norm_down, hv] at h
    · rw [norm_down_exit fuel' v exp (not_le.mp hv)]
      rw [norm_down_exit 0 v exp (not_le.mp hv)] at h
      exact h
  | succ f ih =>
    intro v exp p h fuel' hf
    obtain ⟨g, rfl⟩ : ∃ g, fuel' = g + 1 := ⟨fuel' - 1, by omega⟩
    by_cases hv : 100 ≤ v
    · rw [norm_down, if_pos hv] at h ⊢
      exact ih _ _ p h g (by omega)
    · rw [norm_down_exit _ v exp (not_le.mp hv)] at h ⊢
      exact h

theorem norm_up_mono : ∀ (fuel : ℕ) (v : ℚ) (exp : ℤ) (p : ℚ × ℤ),
    norm_up fuel v exp = some p → ∀ fuel', fuel ≤ fuel' → norm_up fuel' v exp = some p := by
  intro fuel
  induction fuel with
  | zero =>
    intro v exp p h fuel' _
    by_cases hv : v < 10
    · simp [norm_up, hv] at h
    · rw [norm_up_exit fuel' v exp (not_lt.mp hv)]
      rw [norm_up_exit 0 v exp (not_lt.mp hv)] at h
      exact h
  | succ f ih =>
    intro v exp p h fuel' hf
    obtain ⟨g, rfl⟩ : ∃ g, fuel' = g + 1 := ⟨fuel' - 1, by omega⟩
    by_cases hv : v < 10
    · rw [norm_up, if_pos hv] at h ⊢
      exact ih _ _ p h g (by omega)
    · rw [norm_up_exit _ v exp (not_lt.mp hv)] at h ⊢
      exact h

/-- A result obtained with some iteration budget is obtained with every larger one. -/
theorem resistor_to_bands_mono (fuel fuel' : ℕ) (r : ℚ) (res : BandResult)
    (h : resistor_to_bands fuel r = some res) (hf : fuel ≤ fuel') :
    resistor_to_bands fuel' r = some res := by
  unfold resistor_to_bands at h ⊢
  by_cases hr : r ≤ 0
  · rw [if_pos hr] at h ⊢; exact h
  · rw [if_neg hr] at h ⊢
    cases hd : norm_down fuel r 0 with
    | none => rw [hd] at h; simp at h
    | some p =>
      obtain ⟨v1, e1⟩ := p
      rw [hd] at h
      rw [norm_down_mono fuel r 0 _ hd fuel' hf]
      simp only at h ⊢
      cases hu : norm_up fuel v1 e1 with
      | none => rw [hu] at h; simp at h
      | some q =>
        obtain ⟨v, e⟩ := q
        rw [hu] at h
        rw [norm_up_mono fuel v1 e1 _ hu fuel' hf]
        exact h

/-- Normal form: for `10 ≤ v < 100` the two loops bring `v * 10 ^ z` to `(v, z)` within `|z|`
iterations, and the encoder's answer is computed from that pair. -/
theorem resistor_to_bands_normal (v : ℚ) (z : ℤ) (h10 : 10 ≤ v) (h100 : v < 100) (fuel : ℕ)
    (hf : z.natAbs ≤ fuel) :
    resistor_to_bands fuel (v * 10 ^ z) = some (bands_of_normalised v z) := by
  have hpos : ¬ v * (10 : ℚ) ^ z ≤ 0 := by
    have : (0 : ℚ) < v * 10 ^ z := by positivity
    exact not_le.mpr this
  unfold resistor_to_bands
  rw [if_neg hpos]
  rcases le_or_lt 0 z with hz | hz
  · obtain ⟨n, rfl⟩ := Int.eq_ofNat_of_zero_le hz
    have hn : n ≤ fuel := by simpa using hf
    rw [zpow_natCast, norm_down_pow n fuel v 0 hn h10 h100]
    simp only [zero_add]
    rw [norm_up_exit fuel v n h10]
  · obtain ⟨n, hn⟩ := Int.exists_eq_neg_ofNat hz.le
    subst hn
    have hnf : n ≤ fuel := by simpa using hf
    have hlt : v * (10 : ℚ) ^ (-(n : ℤ)) < 100 := by
      rw [zpow_neg, zpow_natCast, ← div_eq_mul_inv, div_lt_iff₀ (by positivity)]
      have hp : (1 : ℚ) ≤ 10 ^ n := one_le_pow₀ (by norm_num)
      nlinarith
    rw [norm_down_exit fuel _ 0 hlt]
    simp only
    rw [zpow_neg, zpow_natCast, ← div_eq_mul_inv, norm_up_pow n fuel v 0 hnf h10 h100]
    simp only [zero_sub]

/-- The encoder on an arbitrary positive value, in terms of its decade. -/
theorem resistor_to_bands_eq (r : ℚ) (hr : 0 < r) (fuel : ℕ)
    (hf : (Int.log 10 r - 1).natAbs ≤ fuel) :
    resistor_to_bands fuel r =
      some (bands_of_normalised (r / 10 ^ (Int.log 10 r - 1)) (Int.log 10 r - 1)) := by
  obtain ⟨-, hlo, hhi⟩ := decade_bounds r hr
  have hk : (10 : ℚ) ^ Int.log 10 r = 10 ^ (Int.log 10 r - 1) * 10 := by
    rw [← zpow_add_one₀ (by norm_num), sub_add_cancel]
  rw [hk] at hlo hhi
  have hz : (0 : ℚ) < 10 ^ (Int.log 10 r - 1) := by positivity
  have h10 : 10 ≤ r / 10 ^ (Int.log 10 r - 1) := by rw [le_div_iff₀ hz]; linarith
  have h100 : r / 10 ^ (Int.log 10 r - 1) < 100 := by rw [div_lt_iff₀ hz]; linarith
  have h := resistor_to_bands_normal _ (Int.log 10 r - 1) h10 h100 fuel hf
  rwa [div_mul_cancel₀ _ hz.ne'] at h

theorem c_round_nonneg_eq (v : ℚ) (n : ℤ) (h0 : 0 ≤ v) (hl : (n : ℚ) - 1 / 2 ≤ v)
    (hu : v < (n : ℚ) + 1 / 2) : c_round v = n := by
  unfold c_round
  rw [if_pos h0, Int.floor_eq_iff]
  constructor <;> linarith

theorem c_round_intCast (n : ℤ) (hn : 0 ≤ n) : c_round (n : ℚ) = n :=
  c_round_nonneg_eq _ n (by exact_mod_cast hn) (by linarith) (by linarith)

/-- The tail of the encoder when rounding gives a two-digit number below 100. -/
theorem bands_of_normalised_two_digits (v : ℚ) (z n : ℤ) (hr : c_round v = n) (hn0 : 0 ≤ n)
    (hn : n < 100) :
    bands_of_normalised v z =
      if z < 0 ∨ 6 < z then BandResult.unsupported else BandResult.bands (n / 10) (n % 10) z := by
  unfold bands_of_normalised
  simp only [hr, decide_eq_true_eq, not_le.mpr hn, if_false,
    Int.tdiv_eq_ediv hn0 (by norm_num : (0 : ℤ) ≤ 10),
    Int.tmod_eq_emod hn0 (by norm_num : (0 : ℤ) ≤ 10)]

/-- The tail of the encoder in the carry case (rounding gives exactly 100). -/
theorem bands_of_normalised_carry (v : ℚ) (z : ℤ) (hr : c_round v = 100) :
    bands_of_normalised v z =
      if z + 1 < 0 ∨ 6 < z + 1 then BandResult.unsupported else BandResult.bands 1 0 (z + 1) := by
  unfold bands_of_normalised
  simp only [hr, decide_eq_true_eq, le_refl, if_true]
  rfl

/-- C4 (amended): for digits `1 ≤ d1 ≤ 9`, `0 ≤ d2 ≤ 9` and exponent `0 ≤ e ≤ 6`, encoding the
decoded value `(10 * d1 + d2) * 10 ^ e` succeeds within six loop iterations and gives back
exactly `(d1, d2, e)`. -/
theorem encode_decode_roundtrip (d1 d2 e : ℤ) (h1 : 1 ≤ d1 ∧ d1 ≤ 9) (h2 : 0 ≤ d2 ∧ d2 ≤ 9)
    (he : 0 ≤ e ∧ e ≤ 6) (fuel : ℕ) (hf : 6 ≤ fuel) :
    resistor_to_bands fuel (menu_item_1_decode d1 d2 e) = some (BandResult.bands d1 d2 e) := by
  have hn0 : (0 : ℤ) ≤ d1 * 10 + d2 := by omega
  have hn10 : (10 : ℤ) ≤ d1 * 10 + d2 := by omega
  have hn100 : d1 * 10 + d2 < 100 := by omega
  have hv10 : (10 : ℚ) ≤ ((d1 * 10 + d2 : ℤ) : ℚ) := by exact_mod_cast hn10
  have hv100 : ((d1 * 10 + d2 : ℤ) : ℚ) < 100 := by exact_mod_cast hn100
  unfold menu_item_1_decode
  rw [resistor_to_bands_normal _ e hv10 hv100 fuel (by omega),
    bands_of_normalised_two_digits _ e _ (c_round_intCast _ hn0) hn0 hn100,
    if_neg (by omega)]
  have hd1 : (d1 * 10 + d2) / 10 = d1 := by omega
  have hd2 : (d1 * 10 + d2) % 10 = d2 := by omega
  rw [hd1, hd2]

theorem encode_decode_roundtrip_witness :
    ((1 : ℤ) ≤ 4 ∧ (4 : ℤ) ≤ 9) ∧ ((0 : ℤ) ≤ 7 ∧ (7 : ℤ) ≤ 9) ∧ ((0 : ℤ) ≤ 2 ∧ (2 : ℤ) ≤ 6) ∧
    6 ≤ 6 ∧ resistor_to_bands 6 (menu_item_1_decode 4 7 2) = some (BandResult.bands 4 7 2) :=
  ⟨by decide, by decide, by decide, by decide,
    encode_decode_roundtrip 4 7 2 (by decide) (by decide) (by decide) 6 (by decide)⟩

/-- C4 (counterexample): the band code `(0, 5, 1)` is in the range of the claim and decodes to
50; the encoder answers `(5, 0, 0)` for 50, and `(0, 5, 1)` for no iteration budget. -/
theorem encode_decode_leading_zero :
    ((0 : ℤ) ≤ 0 ∧ (0 : ℤ) ≤ 9) ∧ ((0 : ℤ) ≤ 5 ∧ (5 : ℤ) ≤ 9) ∧ ((0 : ℤ) ≤ 1 ∧ (1 : ℤ) ≤ 6) ∧
    resistor_to_bands 6 (menu_item_1_decode 0 5 1) = some (BandResult.bands 5 0 0) ∧
    ¬ ∃ fuel, resistor_to_bands fuel (menu_item_1_decode 0 5 1) = some (BandResult.bands 0 5 1) := by
  have h50 : ∀ fuel, resistor_to_bands fuel (menu_item_1_decode 0 5 1) =
      some (BandResult.bands 5 0 0) := by
    intro fuel
    have h := resistor_to_bands_normal 50 0 (by norm_num) (by norm_num) fuel (by simp)
    have hv : menu_item_1_decode 0 5 1 = 50 * 10 ^ (0 : ℤ) := by
      norm_num [menu_item_1_decode]
    rw [hv, h, bands_of_normalised_two_digits 50 0 50 (by exact_mod_cast c_round_intCast 50 (by norm_num))
      (by norm_num) (by norm_num)]
    norm_num
  refine ⟨by decide, by decide, by decide, h50 6, ?_⟩
  rintro ⟨fuel, h⟩
  rw [h50 fuel] at h
  simp at h

/-- Rounding a normalised value below 99.5 gives a two-digit number. -/
theorem c_round_two_digits (v : ℚ) (h10 : 10 ≤ v) (h : v < 199 / 2) :
    10 ≤ c_round v ∧ c_round v < 100 := by
  unfold c_round
  rw [if_pos (by linarith)]
  constructor
  · rw [Int.le_floor]; push_cast; linarith
  · rw [Int.floor_lt]; push_cast; linarith

/-- Rounding a normalised value from 99.5 upwards gives 100 (the carry case). -/
theorem c_round_carry (v : ℚ) (h : 199 / 2 ≤ v) (h100 : v < 100) : c_round v = 100 :=
  c_round_nonneg_eq v 100 (by linarith) (by push_cast; linarith) (by push_cast; linarith)

/-- Every E24 mantissa is a two-digit integer divided by ten. -/
theorem E24_BASE_tenths : ∀ c ∈ E24_BASE, ∃ n : ℤ, 10 ≤ n ∧ n < 100 ∧ c = (n : ℚ) / 10 := by
  have hl : E24_BASE = List.map (fun n : ℤ => (n : ℚ) / 10)
      [10, 11, 12, 13, 15, 16, 18, 20, 22, 24, 27, 30, 33, 36, 39, 43, 47, 51, 56, 62, 68, 75,
        82, 91] := by
    norm_num [E24_BASE]
  have hb : ∀ n ∈ ([10, 11, 12, 13, 15, 16, 18, 20, 22, 24, 27, 30, 33, 36, 39, 43, 47, 51, 56,
      62, 68, 75, 82, 91] : List ℤ), 10 ≤ n ∧ n < 100 := by decide
  intro c hc
  rw [hl, List.mem_map] at hc
  obtain ⟨n, hn, rfl⟩ := hc
  exact ⟨n, (hb n hn).1, (hb n hn).2, rfl⟩

/-- The result of the scan on a positive target is a mantissa times a power of ten. -/
theorem find_closest_form (x : ℚ) (hx : 0 < x) :
    ∃ c ∈ E24_BASE, ∃ j : ℤ, find_closest_e24_resistor x = c * 10 ^ j := by
  have hone : (1 : ℚ) ∈ E24_BASE := by rw [E24_BASE_split]; exact List.mem_cons_self _ _
  rcases find_closest_cases x hx with ⟨c, hc, hr, -, -, -⟩ | ⟨hr, -⟩
  · exact ⟨c, hc, _, hr⟩
  · exact ⟨1, hone, Int.log 10 x + 1, by rw [hr, zpow_add_one₀ (by norm_num)]⟩

/-- C6: whenever the encoder succeeds on a snapped value with `(d1, d2, e)`, the bands decode to
exactly that value: `(10 * d1 + d2) * 10 ^ e = find_closest_e24_resistor x`. -/
theorem bands_denote_snapped_value (x : ℚ) (hx : 0 < x) (fuel : ℕ) (d1 d2 e : ℤ)
    (h : resistor_to_bands fuel (find_closest_e24_resistor x) = some (BandResult.bands d1 d2 e)) :
    menu_item_1_decode d1 d2 e = find_closest_e24_resistor x := by
  obtain ⟨c, hc, j, hr⟩ := find_closest_form x hx
  obtain ⟨n, hn10, hn100, rfl⟩ := E24_BASE_tenths c hc
  have hval : find_closest_e24_resistor x = (n : ℚ) * 10 ^ (j - 1) := by
    rw [hr, zpow_sub_one₀ (by norm_num)]; field_simp
  rw [hval] at h ⊢
  have h' := resistor_to_bands_mono fuel (max fuel (j - 1).natAbs) _ _ h (le_max_left _ _)
  rw [resistor_to_bands_normal (n : ℚ) (j - 1) (by exact_mod_cast hn10) (by exact_mod_cast hn100)
      _ (le_max_right _ _),
    bands_of_normalised_two_digits _ _ n (c_round_intCast n (by omega)) (by omega) hn100] at h'
  by_cases hz : j - 1 < 0 ∨ 6 < j - 1
  · rw [if_pos hz] at h'; simp at h'
  · rw [if_neg hz] at h'
    simp only [Option.some.injEq, BandResult.bands.injEq] at h'
    obtain ⟨h1, h2, h3⟩ := h'
    unfold menu_item_1_decode
    rw [← h1, ← h2, ← h3]
    have : n / 10 * 10 + n % 10 = n := by omega
    rw [this]

theorem bands_denote_snapped_value_witness :
    (0 : ℚ) < 4700 ∧
    resistor_to_bands 2 (find_closest_e24_resistor 4700) = some (BandResult.bands 4 7 2) ∧
    menu_item_1_decode 4 7 2 = find_closest_e24_resistor 4700 := by
  have hfix : find_closest_e24_resistor 4700 = 4700 := by
    have h := find_closest_fixed (47 / 10) (by norm_num [E24_BASE]) 3
    norm_num at h
    exact h
  have hb : resistor_to_bands 2 (find_closest_e24_resistor 4700) =
      some (BandResult.bands 4 7 2) := by
    rw [hfix]
    norm_num [resistor_to_bands, norm_down, norm_up, bands_of_normalised, c_round, Int.tdiv,
      Int.tmod]
  exact ⟨by norm_num, hb, bands_denote_snapped_value 4700 (by norm_num) 2 4 7 2 hb⟩

/-- C7: the documented scenario: 4835 snaps to 4700; 4700 is encoded as `(4, 7, 2)` (two loop
iterations suffice); the decoder formula maps `(4, 7, 2)` back to 4700; and the tables name the
three bands Yellow, Violet, Red. -/
theorem documented_scenario :
    find_closest_e24_resistor 4835 = 4700 ∧
    (∀ n : ℕ, resistor_to_bands (2 + n) 4700 = some (BandResult.bands 4 7 2)) ∧
    menu_item_1_decode 4 7 2 = 4700 ∧
    COLOUR_DIGITS[4]? = some "Yellow" ∧ COLOUR_DIGITS[7]? = some "Violet" ∧
    COLOUR_MULTIPLIERS[2]? = some "Red" := by
  refine ⟨?_, ?_, ?_, rfl, rfl, rfl⟩
  · simp only [find_closest_e24_resistor, log_4835, E24_BASE, e24_scan, E24_COUNT, List.length,
      List.getD_cons_zero]
    norm_num [abs_eq_max_neg]
  · intro n
    apply resistor_to_bands_mono 2 (2 + n) _ _ _ (Nat.le_add_right 2 n)
    norm_num [resistor_to_bands, norm_down, norm_up, bands_of_normalised, c_round, Int.tdiv,
      Int.tmod]
  · norm_num [menu_item_1_decode]

/-! ### Transient simulator -/

theorem simulate_from_get (type : ℤ) (vs r l c dt : ℚ) :
    ∀ (n : ℕ) (s : SimState) (i : ℕ), i < n →
      (simulate_from type vs r l c dt n s)[i]? =
        some (snapshot type l c ((euler_substeps type vs r l c dt 10)^[i] s)) := by
  intro n
  induction n with
  | zero => intro s i hi; omega
  | succ n ih =>
    intro s i hi
    cases i with
    | zero => simp [simulate_from]
    | succ i =>
      simp only [simulate_from, List.getElem?_cons_succ, Function.iterate_succ, Function.comp]
      exact ih _ i (by omega)

theorem trace_get (type : ℤ) (vs r_target l_in c_in t_total : ℚ) (i : ℕ) (hi : i < SIM_STEPS) :
    (menu_item_4_trace type vs r_target l_in c_in t_total)[i]? =
      some (snapshot type
        (menu_item_4_safety type (if type ≠ 1 then l_in else 0) (if type ≠ 2 then c_in else 0)).1
        (menu_item_4_safety type (if type ≠ 1 then l_in else 0) (if type ≠ 2 then c_in else 0)).2
        ((euler_substeps type vs
          (if type ≠ 3 then find_closest_e24_resistor r_target else 0.1)
          (menu_item_4_safety type (if type ≠ 1 then l_in else 0) (if type ≠ 2 then c_in else 0)).1
          (menu_item_4_safety type (if type ≠ 1 then l_in else 0) (if type ≠ 2 then c_in else 0)).2
          (t_total / SIM_STEPS) 10)^[i] { vc := 0, il := 0 })) := by
  unfold menu_item_4_trace menu_item_4_simulate
  exact simulate_from_get _ _ _ _ _ _ _ _ i hi

/-- After the guards the inductance is positive in every topology other than RC. -/
theorem safety_inductance_pos (type : ℤ) (l c : ℚ) (ht : type ≠ 1) :
    0 < (menu_item_4_safety type l c).1 := by
  unfold menu_item_4_safety
  by_cases hl : l ≤ 0
  · simp only [ht, hl, ne_eq, not_false_eq_true, and_self, if_true]; norm_num
  · simp only [hl, and_false, if_false]; exact not_le.mp hl

/-- What the recorded energies do satisfy, on inputs without a division by zero (in LC and RLC
the entered capacitance is not 0): the inductor energy is never negative, and the capacitor
energy is never negative in RC and RL, nor in LC and RLC when the entered capacitance is
positive. -/
theorem energies_nonneg_guarded (type : ℤ) (vs r_target l_in c_in t_total : ℚ) (i : ℕ)
    (hi : i < SIM_STEPS) (smp : Sample) (_hdiv : type = 1 ∨ type = 2 ∨ c_in ≠ 0)
    (h : (menu_item_4_trace type vs r_target l_in c_in t_total)[i]? = some smp) :
    0 ≤ smp.data_el ∧ ((type = 1 ∨ type = 2 ∨ 0 < c_in) → 0 ≤ smp.data_ec) := by
  rw [trace_get _ _ _ _ _ _ i hi] at h
  simp only [Option.some.injEq] at h
  subst h
  constructor
  · unfold snapshot
    by_cases ht : type = 1
    · simp [ht]
    · have hl := safety_inductance_pos type (if type ≠ 1 then l_in else 0)
        (if type ≠ 2 then c_in else 0) ht
      simp only [ht, if_false]
      have hsq := mul_self_nonneg
        ((euler_substeps type vs (if type ≠ 3 then find_closest_e24_resistor r_target else 0.1)
          (menu_item_4_safety type (if type ≠ 1 then l_in else 0)
            (if type ≠ 2 then c_in else 0)).1
          (menu_item_4_safety type (if type ≠ 1 then l_in else 0)
            (if type ≠ 2 then c_in else 0)).2
          (t_total / SIM_STEPS) 10)^[i] { vc := 0, il := 0 }).il
      rw [mul_assoc]
      exact mul_nonneg (mul_nonneg (by norm_num) hl.le) hsq
  · intro hc
    unfold snapshot
    by_cases ht2 : type = 2
    · simp [ht2]
    · simp only [ht2, if_false]
      have hcap : 0 ≤ (menu_item_4_safety type (if type ≠ 1 then l_in else 0)
          (if type ≠ 2 then c_in else 0)).2 := by
        unfold menu_item_4_safety
        simp only [ne_eq, ht2, not_false_eq_true, if_true]
        by_cases ht1 : type = 1
        · by_cases hc0 : c_in ≤ 0
          · simp only [ht1, hc0, and_self, if_true]; norm_num
          · simp only [hc0, and_false, if_false]; exact (not_le.mp hc0).le
        · simp only [ht1, false_and, if_false]
          rcases hc with h1 | h2 | h3
          · exact absurd h1 ht1
          · exact absurd h2 ht2
          · exact h3.le
      have hsq := mul_self_nonneg
        ((euler_substeps type vs (if type ≠ 3 then find_closest_e24_resistor r_target else 0.1)
          (menu_item_4_safety type (if type ≠ 1 then l_in else 0)
            (if type ≠ 2 then c_in else 0)).1
          (menu_item_4_safety type (if type ≠ 1 then l_in else 0)
            (if type ≠ 2 then c_in else 0)).2
          (t_total / SIM_STEPS) 10)^[i] { vc := 0, il := 0 }).vc
      rw [mul_assoc]
      exact mul_nonneg (mul_nonneg (by norm_num) hcap) hsq

/-- C9 (failing input): in the RLC topology with `Vs = 1`, `R = 1`, `L = 1`, an entered
capacitance `C = -1` and total time `10000`, the capacitor energy recorded at sample 1 is
`0.5 * (-1) * (-1023)^2 = -1046529/2`, which is negative: the capacitance guard does not cover
this topology, so the simulation runs with the negative value. -/
theorem capacitor_energy_negative_rlc :
    ((menu_item_4_trace 4 1 1 1 (-1) 10000)[1]?).map Sample.data_ec = some (-1046529 / 2) ∧
    (-1046529 / 2 : ℚ) < 0 := by
  refine ⟨?_, by norm_num⟩
  rw [trace_get _ _ _ _ _ _ 1 (by norm_num [SIM_STEPS])]
  have hdt : (10000 : ℚ) / (SIM_STEPS : ℕ) = 10 := by norm_num [SIM_STEPS]
  have hs : menu_item_4_safety 4 (if (4 : ℤ) ≠ 1 then 1 else 0) (if (4 : ℤ) ≠ 2 then -1 else 0)
      = (1, -1) := by
    norm_num [menu_item_4_safety]
  have hr : (if (4 : ℤ) ≠ 3 then find_closest_e24_resistor 1 else 0.1) = 1 := by
    have h := find_closest_fixed 1 (by norm_num [E24_BASE]) 0
    norm_num at h
    norm_num [h]
  rw [hdt, hs, hr]
  simp only [Function.iterate_succ, Function.iterate_zero, Function.comp, id, euler_substeps]
  norm_num [euler_substep, snapshot]

/-- C10 (failing input): in the LC and RLC topologies (types 3 and 4) the guards leave every
capacitance unchanged, a non-positive one included (for instance `C = -1` and `C = 0`), while a
non-positive inductance is replaced by `1e-3` there and a non-positive capacitance is replaced
by `1e-6` in the RC topology. -/
theorem safety_capacitor_guard_rc_only :
    (∀ l c : ℚ, (menu_item_4_safety 3 l c).2 = c ∧ (menu_item_4_safety 4 l c).2 = c) ∧
    (menu_item_4_safety 4 1 (-1)).2 = -1 ∧ (menu_item_4_safety 3 1 0).2 = 0 ∧
    (menu_item_4_safety 4 0 1).1 = 1 / 1000 ∧ (menu_item_4_safety 3 (-1) 1).1 = 1 / 1000 ∧
    (menu_item_4_safety 1 0 (-1)).2 = 1 / 1000000 := by
  refine ⟨fun l c => ?_, ?_, ?_, ?_, ?_, ?_⟩ <;> norm_num [menu_item_4_safety]

/-! ### Colour band codec: acceptance range and output ranges -/

/-- The tail of the encoder on a normalised pair: it answers `unsupported` exactly when the pair
lies outside the window `z = -1 ∧ 99.5 ≤ v`, `0 ≤ z ≤ 5`, `z = 6 ∧ v < 99.5`; otherwise the
digits and the multiplier index are inside the tables. -/
theorem bands_of_normalised_cases (v : ℚ) (z : ℤ) (h10 : 10 ≤ v) (h100 : v < 100) :
    (bands_of_normalised v z = BandResult.unsupported ∧
      ¬ ((z = -1 ∧ 199 / 2 ≤ v) ∨ (0 ≤ z ∧ z ≤ 5) ∨ (z = 6 ∧ v < 199 / 2))) ∨
    (∃ d1 d2 e : ℤ, bands_of_normalised v z = BandResult.bands d1 d2 e ∧
      (1 ≤ d1 ∧ d1 ≤ 9) ∧ (0 ≤ d2 ∧ d2 ≤ 9) ∧ (0 ≤ e ∧ e ≤ 6) ∧
      ((z = -1 ∧ 199 / 2 ≤ v) ∨ (0 ≤ z ∧ z ≤ 5) ∨ (z = 6 ∧ v < 199 / 2))) := by
  rcases lt_or_le v (199 / 2) with hv | hv
  · obtain ⟨ha, hb⟩ := c_round_two_digits v h10 hv
    rw [bands_of_normalised_two_digits v z _ rfl (by omega) hb]
    by_cases hz : z < 0 ∨ 6 < z
    · left
      rw [if_pos hz]
      refine ⟨rfl, ?_⟩
      rintro (⟨-, h⟩ | ⟨h1, h2⟩ | ⟨h1, -⟩)
      · linarith
      · omega
      · omega
    · right
      rw [if_neg hz]
      refine ⟨_, _, _, rfl, by omega, by omega, by omega, ?_⟩
      by_cases h6 : z = 6
      · exact Or.inr (Or.inr ⟨h6, hv⟩)
      · exact Or.inr (Or.inl ⟨by omega, by omega⟩)
  · rw [bands_of_normalised_carry v z (c_round_carry v hv h100)]
    by_cases hz : z + 1 < 0 ∨ 6 < z + 1
    · left
      rw [if_pos hz]
      refine ⟨rfl, ?_⟩
      rintro (⟨h, -⟩ | ⟨h1, h2⟩ | ⟨-, h⟩)
      · omega
      · omega
      · linarith
    · right
      rw [if_neg hz]
      refine ⟨1, 0, z + 1, rfl, by omega, by omega, by omega, ?_⟩
      by_cases h1 : z = -1
      · exact Or.inl ⟨h1, hv⟩
      · exact Or.inr (Or.inl ⟨by omega, by omega⟩)

/-- The window of `bands_of_normalised_cases` in terms of the value `x = v * 10 ^ z`. -/
theorem normal_window_iff (x : ℚ) (z : ℤ) (h10 : 10 ≤ x / 10 ^ z) (h100 : x / 10 ^ z < 100) :
    ((z = -1 ∧ 199 / 2 ≤ x / 10 ^ z) ∨ (0 ≤ z ∧ z ≤ 5) ∨ (z = 6 ∧ x / 10 ^ z < 199 / 2)) ↔
      (199 / 20 ≤ x ∧ x < 99500000) := by
  have hz : (0 : ℚ) < 10 ^ z := by positivity
  rw [le_div_iff₀ hz] at h10
  rw [div_lt_iff₀ hz] at h100
  constructor
  · rintro (⟨h1, hv⟩ | ⟨h0, h5⟩ | ⟨h6, hv⟩)
    · subst h1
      rw [le_div_iff₀ hz] at hv
      norm_num at hv h10 h100
      constructor <;> linarith
    · have hlo : (1 : ℚ) ≤ 10 ^ z := one_le_zpow₀ (by norm_num) h0
      have hhi : (10 : ℚ) ^ z ≤ 10 ^ (5 : ℤ) := zpow_le_zpow_right₀ (by norm_num) h5
      norm_num at hhi
      constructor <;> linarith
    · subst h6
      rw [div_lt_iff₀ hz] at hv
      norm_num at hv h10 h100
      constructor <;> linarith
  · rintro ⟨hlo, hhi⟩
    have hzlo : -1 ≤ z := by
      by_contra hc
      have : (10 : ℚ) ^ z ≤ 10 ^ (-2 : ℤ) := zpow_le_zpow_right₀ (by norm_num) (by omega)
      norm_num at this
      linarith
    have hzhi : z ≤ 6 := by
      by_contra hc
      have : (10 : ℚ) ^ (7 : ℤ) ≤ 10 ^ z := zpow_le_zpow_right₀ (by norm_num) (by omega)
      norm_num at this
      linarith
    by_cases h1 : z = -1
    · left
      subst h1
      refine ⟨rfl, ?_⟩
      rw [le_div_iff₀ hz]; norm_num; linarith
    · by_cases h6 : z = 6
      · right; right
        subst h6
        refine ⟨rfl, ?_⟩
        rw [div_lt_iff₀ hz]; norm_num; linarith
      · right; left; constructor <;> omega

/-- The encoder on a positive value with a sufficient budget: either it answers `unsupported` and
the value is outside `[9.95, 9.95e7)`, or it answers bands inside the tables and the value is
inside that range. -/
theorem resistor_to_bands_cases (x : ℚ) (hx : 0 < x) (fuel : ℕ)
    (hf : (Int.log 10 x - 1).natAbs ≤ fuel) :
    (resistor_to_bands fuel x = some BandResult.unsupported ∧
      ¬ (199 / 20 ≤ x ∧ x < 99500000)) ∨
    (∃ d1 d2 e : ℤ, resistor_to_bands fuel x = some (BandResult.bands d1 d2 e) ∧
      (1 ≤ d1 ∧ d1 ≤ 9) ∧ (0 ≤ d2 ∧ d2 ≤ 9) ∧ (0 ≤ e ∧ e ≤ 6) ∧
      (199 / 20 ≤ x ∧ x < 99500000)) := by
  rw [resistor_to_bands_eq x hx fuel hf]
  obtain ⟨-, hlo, hhi⟩ := decade_bounds x hx
  have hk : (10 : ℚ) ^ Int.log 10 x = 10 ^ (Int.log 10 x - 1) * 10 := by
    rw [← zpow_add_one₀ (by norm_num), sub_add_cancel]
  rw [hk] at hlo hhi
  generalize Int.log 10 x - 1 = z at hlo hhi ⊢
  have hz : (0 : ℚ) < 10 ^ z := by positivity
  have h10 : 10 ≤ x / 10 ^ z := by rw [le_div_iff₀ hz]; linarith
  have h100 : x / 10 ^ z < 100 := by rw [div_lt_iff₀ hz]; linarith
  have hw := normal_window_iff x z h10 h100
  rcases bands_of_normalised_cases _ z h10 h100 with ⟨hb, hn⟩ | ⟨d1, d2, e, hb, h1, h2, h3, hwin⟩
  · left
    rw [hb]
    exact ⟨rfl, fun h => hn (hw.mpr h)⟩
  · right
    rw [hb]
    exact ⟨d1, d2, e, rfl, h1, h2, h3, hw.mp hwin⟩

/-- C19: with an iteration budget covering the decade of `x`, both normalisation loops exit (the
encoder returns an answer), and the answer is a band code if and only if `9.95 ≤ x < 9.95e7`; in
particular the encoder fails for every `x ≤ 0` and every other positive `x`. -/
theorem resistor_to_bands_accept_iff (x : ℚ) (fuel : ℕ)
    (hf : (Int.log 10 x - 1).natAbs ≤ fuel) :
    ∃ res, resistor_to_bands fuel x = some res ∧
      (res ≠ BandResult.unsupported ↔ (199 / 20 ≤ x ∧ x < 99500000)) := by
  rcases le_or_lt x 0 with h0 | h0
  · refine ⟨BandResult.unsupported, by simp [resistor_to_bands, h0], ?_⟩
    constructor
    · intro h; exact absurd rfl h
    · rintro ⟨h, -⟩; exfalso; linarith
  · rcases resistor_to_bands_cases x h0 fuel hf with ⟨hr, hn⟩ | ⟨d1, d2, e, hr, -, -, -, hin⟩
    · exact ⟨_, hr, ⟨fun h => absurd rfl h, fun h => absurd h hn⟩⟩
    · exact ⟨_, hr, ⟨fun _ => hin, fun _ => by simp⟩⟩

theorem log_4700 : Int.log 10 (4700 : ℚ) = 3 := by
  have h := log_mantissa_mul (47 / 10) 3 (by norm_num) (by norm_num)
  norm_num at h
  exact h

theorem resistor_to_bands_accept_iff_witness :
    (Int.log 10 (4700 : ℚ) - 1).natAbs ≤ 2 ∧
    ∃ res, resistor_to_bands 2 4700 = some res ∧
      (res ≠ BandResult.unsupported ↔ ((199 / 20 : ℚ) ≤ 4700 ∧ (4700 : ℚ) < 99500000)) :=
  ⟨by rw [log_4700]; decide, resistor_to_bands_accept_iff 4700 2 (by rw [log_4700]; decide)⟩

/-- On a finite argument: whenever the encoder succeeds, `1 ≤ d1 ≤ 9`, `0 ≤ d2 ≤ 9` and
`0 ≤ mult_idx ≤ 6` (the carry case gives `(1, 0, exp + 1)`), so the three lookups of
`menu_item_1` are inside the 10-entry and the 7-entry table. -/
theorem resistor_to_bands_outputs_in_range (fuel : ℕ) (x : ℚ) (d1 d2 mult_idx : ℤ)
    (h : resistor_to_bands fuel x = some (BandResult.bands d1 d2 mult_idx)) :
    (1 ≤ d1 ∧ d1 ≤ 9) ∧ (0 ≤ d2 ∧ d2 ≤ 9) ∧ (0 ≤ mult_idx ∧ mult_idx ≤ 6) ∧
    d1.toNat < COLOUR_DIGITS.length ∧ d2.toNat < COLOUR_DIGITS.length ∧
    mult_idx.toNat < COLOUR_MULTIPLIERS.length := by
  have hx : 0 < x := by
    by_contra hc
    simp [resistor_to_bands, not_lt.mp hc] at h
  have h' := resistor_to_bands_mono fuel (max fuel (Int.log 10 x - 1).natAbs) x _ h
    (le_max_left _ _)
  rcases resistor_to_bands_cases x hx _ (le_max_right fuel _) with
    ⟨hr, -⟩ | ⟨a, b, e, hr, h1, h2, h3, -⟩
  · rw [hr] at h'; simp at h'
  · rw [hr] at h'
    simp only [Option.some.injEq, BandResult.bands.injEq] at h'
    obtain ⟨rfl, rfl, rfl⟩ := h'
    refine ⟨h1, h2, h3, ?_, ?_, ?_⟩
    · have : COLOUR_DIGITS.length = 10 := rfl
      omega
    · have : COLOUR_DIGITS.length = 10 := rfl
      omega
    · have : COLOUR_MULTIPLIERS.length = 7 := rfl
      omega

theorem resistor_to_bands_outputs_in_range_witness :
    resistor_to_bands 6 (199 / 2) = some (BandResult.bands 1 0 1) ∧
    ((1 : ℤ) ≤ 1 ∧ (1 : ℤ) ≤ 9) ∧ ((0 : ℤ) ≤ 0 ∧ (0 : ℤ) ≤ 9) ∧ ((0 : ℤ) ≤ 1 ∧ (1 : ℤ) ≤ 6) ∧
    (1 : ℤ).toNat < COLOUR_DIGITS.length ∧ (0 : ℤ).toNat < COLOUR_DIGITS.length ∧
    (1 : ℤ).toNat < COLOUR_MULTIPLIERS.length := by
  have hb : resistor_to_bands 6 (199 / 2) = some (BandResult.bands 1 0 1) := by
    norm_num [resistor_to_bands, norm_down, norm_up, bands_of_normalised, c_round, Int.tdiv,
      Int.tmod]
  exact ⟨hb, resistor_to_bands_outputs_in_range 6 (199 / 2) 1 0 1 hb⟩

/-! ### Menu selection -/

/-- What the range test of `get_menu_selection` does guarantee for an accepted input when
`max ≥ 0`: the result is at most `max` and at least `min - 1`, and at least `min` when
`min ≤ 0` (so the ranges 0..9 and 0..6 always give a valid table index). -/
theorem menu_selection_attempt_bounds (min max : ℤ) (d : ℚ) (hmax : 0 ≤ max)
    (hlo : (min : ℚ) - 0.0001 ≤ d) (hhi : d ≤ (max : ℚ) + 0.0001) :
    menu_selection_attempt min max d = c_trunc d ∧ min - 1 ≤ c_trunc d ∧ c_trunc d ≤ max ∧
      (min ≤ 0 → min ≤ c_trunc d) := by
  have hne : ¬ (d < (min : ℚ) - 0.0001 ∨ d > (max : ℚ) + 0.0001) := by
    rintro (h | h) <;> linarith
  refine ⟨by simp only [menu_selection_attempt, hne, if_false], ?_⟩
  unfold c_trunc
  norm_num at hlo hhi
  by_cases h0 : 0 ≤ d
  · rw [if_pos h0]
    refine ⟨?_, ?_, ?_⟩
    · rw [Int.le_floor]; push_cast; linarith
    · have : ⌊d⌋ < max + 1 := by rw [Int.floor_lt]; push_cast; linarith
      omega
    · intro hm
      have : (0 : ℤ) ≤ ⌊d⌋ := Int.floor_nonneg.mpr h0
      omega
  · rw [if_neg h0]
    push_neg at h0
    have hc0 : ⌈d⌉ ≤ 0 := by rw [Int.ceil_le]; push_cast; linarith
    have hmin : min ≤ 0 := by
      by_contra hc
      have : (1 : ℚ) ≤ min := by exact_mod_cast (by omega : (1 : ℤ) ≤ min)
      linarith
    have hcl : min - 1 < ⌈d⌉ := by rw [Int.lt_ceil]; push_cast; linarith
    exact ⟨by omega, by omega, fun _ => by omega⟩

/-- C18 (failing input): for the ranges 1..2 and 1..4 of the mode menus the entered number
`0.99995` passes the range test (it is not below `min - 0.0001`) and the cast to `int` gives 0,
which is returned although it is below `min = 1`. -/
theorem get_menu_selection_below_min :
    get_menu_selection 1 2 [99995 / 100000] = some 0 ∧
    get_menu_selection 1 4 [99995 / 100000] = some 0 := by
  constructor <;>
    norm_num [get_menu_selection, menu_selection_attempt, c_trunc]

/-! ### Transient simulator: sub-steps, time window, RC charging -/

/-- C15 (counterexample): in the RLC topology with `Vs = R = L = C = 1`, step `h = 1` and state
`(v_C, i_L) = (0, 0)`, the code moves `v_C` to 1 (it uses the current after its update, which is
1), while forward Euler with the current before the sub-step, which is 0, leaves `v_C` at 0. -/
theorem euler_substep_not_forward :
    (euler_substep 4 1 1 1 1 1 { vc := 0, il := 0 }).vc = 1 ∧
    (forward_euler_step 4 1 1 1 1 1 { vc := 0, il := 0 }).vc = 0 ∧
    euler_substep 4 1 1 1 1 1 { vc := 0, il := 0 } ≠
      forward_euler_step 4 1 1 1 1 1 { vc := 0, il := 0 } := by
  have h1 : (euler_substep 4 1 1 1 1 1 { vc := 0, il := 0 }).vc = 1 := by
    norm_num [euler_substep]
  have h2 : (forward_euler_step 4 1 1 1 1 1 { vc := 0, il := 0 }).vc = 0 := by
    norm_num [forward_euler_step]
  refine ⟨h1, h2, fun h => ?_⟩
  rw [h, h2] at h1
  norm_num at h1

/-- C16: for positive `R`, `L`, `C` the automatic time window is `5RC` for RC, `5L/R` for RL,
`3 * 2π * sqrt(LC)` for LC, and for RLC, with `α = R / (2L)` and `ω0 = 1 / sqrt(LC)`, the smaller
of `10 * 2π / ω0` and `5 / α` when `α < ω0` (so at most `5 / α`), and `10 / α` when
`α ≥ ω0`.  The statement holds over every ordered field and for every square-root function and
constant, in particular over the reals with the real square root and `π`. -/
theorem auto_time_window {K : Type} [LinearOrderedField K] (sqrt : K → K) (M_PI : K)
    (r l c : K) (_hr : 0 < r) (_hl : 0 < l) (_hc : 0 < c) :
    menu_item_4_auto_time sqrt M_PI 1 r l c = 5 * r * c ∧
    menu_item_4_auto_time sqrt M_PI 2 r l c = 5 * l / r ∧
    menu_item_4_auto_time sqrt M_PI 3 r l c = 3 * 2 * M_PI * sqrt (l * c) ∧
    (r / (2 * l) < 1 / sqrt (l * c) →
      menu_item_4_auto_time sqrt M_PI 4 r l c =
        min (10 * 2 * M_PI / (1 / sqrt (l * c))) (5 / (r / (2 * l))) ∧
      menu_item_4_auto_time sqrt M_PI 4 r l c ≤ 5 / (r / (2 * l))) ∧
    (1 / sqrt (l * c) ≤ r / (2 * l) →
      menu_item_4_auto_time sqrt M_PI 4 r l c = 10 / (r / (2 * l))) := by
  have h4 : menu_item_4_auto_time sqrt M_PI 4 r l c =
      if r / (2 * l) < 1 / sqrt (l * c) then
        (if 10 * (2 * M_PI / (1 / sqrt (l * c))) > 5 / (r / (2 * l)) then 5 / (r / (2 * l))
          else 10 * (2 * M_PI / (1 / sqrt (l * c))))
      else 10 / (r / (2 * l)) := by
    unfold menu_item_4_auto_time
    rw [if_neg (by decide), if_neg (by decide), if_neg (by decide), if_pos rfl]
  have hA : 10 * (2 * M_PI / (1 / sqrt (l * c))) = 10 * 2 * M_PI / (1 / sqrt (l * c)) := by
    ring
  refine ⟨?_, ?_, ?_, ?_, ?_⟩
  · unfold menu_item_4_auto_time
    rw [if_pos rfl]
  · unfold menu_item_4_auto_time
    rw [if_neg (by decide), if_pos rfl, mul_div_assoc]
  · unfold menu_item_4_auto_time
    rw [if_neg (by decide), if_neg (by decide), if_pos rfl, one_div_one_div]
    ring
  · intro h
    have hval : menu_item_4_auto_time sqrt M_PI 4 r l c =
        min (10 * 2 * M_PI / (1 / sqrt (l * c))) (5 / (r / (2 * l))) := by
      rw [h4, if_pos h, hA, min_def]
      by_cases hgt : 10 * 2 * M_PI / (1 / sqrt (l * c)) > 5 / (r / (2 * l))
      · rw [if_pos hgt, if_neg (not_le.mpr hgt)]
      · rw [if_neg hgt, if_pos (not_lt.mp hgt)]
    exact ⟨hval, by rw [hval]; exact min_le_right _ _⟩
  · intro h
    rw [h4, if_neg (not_lt.mpr h)]

theorem auto_time_window_witness :
    (0 : ℝ) < 1 ∧
    menu_item_4_auto_time Real.sqrt Real.pi 1 1 1 1 = 5 * 1 * 1 ∧
    menu_item_4_auto_time Real.sqrt Real.pi 2 1 1 1 = 5 * 1 / 1 ∧
    menu_item_4_auto_time Real.sqrt Real.pi 3 1 1 1 = 3 * 2 * Real.pi * Real.sqrt (1 * 1) ∧
    ((1 : ℝ) / (2 * 1) < 1 / Real.sqrt (1 * 1) →
      menu_item_4_auto_time Real.sqrt Real.pi 4 1 1 1 =
        min (10 * 2 * Real.pi / (1 / Real.sqrt (1 * 1))) (5 / (1 / (2 * 1))) ∧
      menu_item_4_auto_time Real.sqrt Real.pi 4 1 1 1 ≤ 5 / (1 / (2 * 1))) ∧
    (1 / Real.sqrt (1 * 1) ≤ (1 : ℝ) / (2 * 1) →
      menu_item_4_auto_time Real.sqrt Real.pi 4 1 1 1 = 10 / (1 / (2 * 1))) :=
  ⟨one_pos, auto_time_window Real.sqrt Real.pi 1 1 1 one_pos one_pos one_pos⟩

/-- The snapped value is positive for every target. -/
theorem find_closest_pos (x : ℚ) : 0 < find_closest_e24_resistor x := by
  rcases le_or_lt x 0 with h | h
  · simp [find_closest_e24_resistor, h]
  · obtain ⟨c, hc, j, hr⟩ := find_closest_form x h
    rw [hr]
    have := (E24_BASE_bounds c hc).1
    positivity

/-- One RC sub-step shrinks the gap `Vs - v_C` by the factor `1 - h / (R C)`. -/
theorem rc_substep_vc (vs r l c h : ℚ) (s : SimState) (hr : r ≠ 0) (hc : c ≠ 0) :
    (euler_substep 1 vs r l c h s).vc = vs - (vs - s.vc) * (1 - h / (r * c)) := by
  simp only [euler_substep, if_true]
  field_simp
  ring

theorem rc_substeps_vc (vs r l c dt : ℚ) (hr : r ≠ 0) (hc : c ≠ 0) :
    ∀ (k : ℕ) (s : SimState),
      (euler_substeps 1 vs r l c dt k s).vc = vs - (vs - s.vc) * (1 - dt / 10 / (r * c)) ^ k := by
  intro k
  induction k with
  | zero => intro s; simp [euler_substeps]
  | succ k ih =>
    intro s
    rw [euler_substeps, ih, rc_substep_vc vs r l c _ s hr hc, pow_succ]
    ring

theorem rc_iterate_vc (vs r l c dt : ℚ) (hr : r ≠ 0) (hc : c ≠ 0) (s : SimState) :
    ∀ i : ℕ, ((euler_substeps 1 vs r l c dt 10)^[i] s).vc =
      vs - (vs - s.vc) * (1 - dt / 10 / (r * c)) ^ (10 * i) := by
  intro i
  induction i with
  | zero => simp
  | succ i ih =>
    rw [Function.iterate_succ_apply', rc_substeps_vc vs r l c dt hr hc, ih]
    rw [show 10 * (i + 1) = 10 * i + 10 by ring, pow_add]
    ring

/-- RC with the default time window: sample `i` of the capacitor voltage is
`Vs * (1 - (1999/2000) ^ (10 i))`. -/
theorem rc_auto_trace_get (sqrt : ℚ → ℚ) (M_PI vs r_target l_in c_in : ℚ) (hc : 0 < c_in)
    (i : ℕ) (hi : i < SIM_STEPS) :
    ∃ smp, (menu_item_4_auto_trace sqrt M_PI 1 vs r_target l_in c_in)[i]? = some smp ∧
      smp.data_vc = vs * (1 - (1999 / 2000) ^ (10 * i)) := by
  have hrpos := find_closest_pos r_target
  have hs : menu_item_4_safety 1 (if (1 : ℤ) ≠ 1 then l_in else 0)
      (if (1 : ℤ) ≠ 2 then c_in else 0) = (0, c_in) := by
    simp [menu_item_4_safety, not_le.mpr hc]
  have hr3 : (if (1 : ℤ) ≠ 3 then find_closest_e24_resistor r_target else 0.1) =
      find_closest_e24_resistor r_target := by simp
  have ht : menu_item_4_default_time sqrt M_PI 1 r_target l_in c_in =
      5 * find_closest_e24_resistor r_target * c_in := by
    unfold menu_item_4_default_time
    simp only [hs, hr3]
    unfold menu_item_4_auto_time
    rw [if_pos rfl]
  unfold menu_item_4_auto_trace
  rw [trace_get _ _ _ _ _ _ i hi, hs, hr3, ht]
  refine ⟨_, rfl, ?_⟩
  simp only [snapshot]
  rw [rc_iterate_vc _ _ _ _ _ hrpos.ne' hc.ne']
  have hq : 1 - 5 * find_closest_e24_resistor r_target * c_in / (SIM_STEPS : ℕ) / 10 /
      (find_closest_e24_resistor r_target * c_in) = 1999 / 2000 := by
    have : (SIM_STEPS : ℚ) = 1000 := by norm_num [SIM_STEPS]
    rw [this]
    field_simp
    ring
  rw [hq]
  ring

/-- C11: RC with `Vs = 5`, `R = 1000`, `C = 1e-6` and the default time window: the last recorded
capacitor voltage is `5 * (1 - (1999/2000) ^ 9990)` and lies within 0.05 of 5. -/
theorem rc_steady_state (sqrt : ℚ → ℚ) (M_PI l_in : ℚ) :
    find_closest_e24_resistor 1000 = 1000 ∧
    menu_item_4_default_time sqrt M_PI 1 1000 l_in 1e-6 = 5 * 1000 * 1e-6 ∧
    ∃ smp, (menu_item_4_auto_trace sqrt M_PI 1 5 1000 l_in 1e-6)[999]? = some smp ∧
      smp.data_vc = 5 * (1 - (1999 / 2000) ^ 9990) ∧ |smp.data_vc - 5| ≤ (0.05 : ℚ) := by
  have hfix : find_closest_e24_resistor 1000 = 1000 := by
    have h := find_closest_fixed 1 (by norm_num [E24_BASE]) 3
    norm_num at h
    exact h
  refine ⟨hfix, ?_, ?_⟩
  · unfold menu_item_4_default_time
    norm_num [menu_item_4_safety, hfix, menu_item_4_auto_time]
  · obtain ⟨smp, hs, hv⟩ := rc_auto_trace_get sqrt M_PI 5 1000 l_in 1e-6 (by norm_num) 999
      (by norm_num [SIM_STEPS])
    have hv' : smp.data_vc = 5 * (1 - (1999 / 2000) ^ 9990) := by rw [hv]
    refine ⟨smp, hs, hv', ?_⟩
    rw [hv']
    rw [abs_le]
    constructor <;> norm_num

/-- C17: RC with positive `Vs`, a positive target resistance (so `R` is its snapped value), a
positive `C` and the default time window: the recorded capacitor voltage starts at 0, never
decreases from one sample to the next, and never exceeds `Vs`. -/
theorem rc_monotonic_charging (sqrt : ℚ → ℚ) (M_PI vs r_target l_in c_in : ℚ) (hvs : 0 < vs)
    (_hr : 0 < r_target) (hc : 0 < c_in) :
    (∃ s0, (menu_item_4_auto_trace sqrt M_PI 1 vs r_target l_in c_in)[0]? = some s0 ∧
      s0.data_vc = 0) ∧
    (∀ i : ℕ, i ≤ 998 → ∃ a b,
      (menu_item_4_auto_trace sqrt M_PI 1 vs r_target l_in c_in)[i]? = some a ∧
      (menu_item_4_auto_trace sqrt M_PI 1 vs r_target l_in c_in)[i + 1]? = some b ∧
      a.data_vc ≤ b.data_vc) ∧
    (∀ i : ℕ, i < SIM_STEPS → ∃ a,
      (menu_item_4_auto_trace sqrt M_PI 1 vs r_target l_in c_in)[i]? = some a ∧
      a.data_vc ≤ vs) := by
  have hq0 : (0 : ℚ) ≤ 1999 / 2000 := by norm_num
  have hq1 : (1999 / 2000 : ℚ) ≤ 1 := by norm_num
  refine ⟨?_, ?_, ?_⟩
  · obtain ⟨s0, h0, hv⟩ := rc_auto_trace_get sqrt M_PI vs r_target l_in c_in hc 0
      (by norm_num [SIM_STEPS])
    exact ⟨s0, h0, by rw [hv]; norm_num⟩
  · intro i hi
    obtain ⟨a, ha, hva⟩ := rc_auto_trace_get sqrt M_PI vs r_target l_in c_in hc i
      (by norm_num [SIM_STEPS]; omega)
    obtain ⟨b, hb, hvb⟩ := rc_auto_trace_get sqrt M_PI vs r_target l_in c_in hc (i + 1)
      (by norm_num [SIM_STEPS]; omega)
    refine ⟨a, b, ha, hb, ?_⟩
    rw [hva, hvb]
    have hpow : ((1999 : ℚ) / 2000) ^ (10 * (i + 1)) ≤ (1999 / 2000) ^ (10 * i) :=
      pow_le_pow_of_le_one hq0 hq1 (by omega)
    nlinarith
  · intro i hi
    obtain ⟨a, ha, hva⟩ := rc_auto_trace_get sqrt M_PI vs r_target l_in c_in hc i hi
    refine ⟨a, ha, ?_⟩
    rw [hva]
    have hp0 : (0 : ℚ) ≤ (1999 / 2000) ^ (10 * i) := by positivity
    nlinarith

theorem rc_monotonic_charging_witness :
    (0 : ℚ) < 5 ∧ (0 : ℚ) < 1000 ∧ (0 : ℚ) < 1 / 1000000 ∧
    (∃ s0, (menu_item_4_auto_trace id 3 1 5 1000 0 (1 / 1000000))[0]? = some s0 ∧
      s0.data_vc = 0) ∧
    (∀ i : ℕ, i ≤ 998 → ∃ a b,
      (menu_item_4_auto_trace id 3 1 5 1000 0 (1 / 1000000))[i]? = some a ∧
      (menu_item_4_auto_trace id 3 1 5 1000 0 (1 / 1000000))[i + 1]? = some b ∧
      a.data_vc ≤ b.data_vc) ∧
    (∀ i : ℕ, i < SIM_STEPS → ∃ a,
      (menu_item_4_auto_trace id 3 1 5 1000 0 (1 / 1000000))[i]? = some a ∧
      a.data_vc ≤ 5) :=
  ⟨by norm_num, by norm_num, by norm_num,
    rc_monotonic_charging id 3 5 1000 0 (1 / 1000000) (by norm_num) (by norm_num)
      (by norm_num)⟩

/-! ### Gain search -/

theorem gain_candidate_eq (mode : ℤ) (g r1 : ℚ) (b : GainBest) :
    gain_candidate mode g r1 b =
      if gain_ideal mode g r1 ≤ 0 then b
      else if (gain_eval mode g r1).best_error < b.best_error then gain_eval mode g r1 else b :=
  rfl

theorem gain_search_eq_foldl (mode : ℤ) (g : ℚ) :
    gain_search mode g =
      gain_r1_list.foldl (fun b r1 => gain_candidate mode g r1 b)
        { best_error := 100.0, best_r1 := 0, best_r2 := 0, best_act_gain := 0 } := by
  unfold gain_search gain_r1_list
  generalize ({ best_error := 100.0, best_r1 := 0, best_r2 := 0, best_act_gain := 0 } : GainBest)
    = b0
  induction multipliers generalizing b0 with
  | nil => rfl
  | cons m ms ih =>
    rw [List.foldl_cons, List.flatMap_cons, List.foldl_append, List.foldl_map]
    exact ih _

theorem gain_r1_list_mem (r1 : ℚ) :
    r1 ∈ gain_r1_list ↔ ∃ e ∈ E24_BASE, ∃ m ∈ multipliers, r1 = e * m := by
  unfold gain_r1_list
  simp only [List.mem_flatMap, List.mem_map]
  constructor
  · rintro ⟨m, hm, e, he, rfl⟩; exact ⟨e, he, m, hm, rfl⟩
  · rintro ⟨e, he, m, hm, rfl⟩; exact ⟨m, hm, e, he, rfl⟩

theorem gain_r1_list_pos (r1 : ℚ) (h : r1 ∈ gain_r1_list) : 0 < r1 := by
  obtain ⟨e, he, m, hm, rfl⟩ := (gain_r1_list_mem r1).mp h
  have he1 := (E24_BASE_bounds e he).1
  have hmpos : 0 < m := by
    simp only [multipliers, List.mem_cons, List.mem_singleton, List.not_mem_nil, or_false] at hm
    rcases hm with rfl | rfl | rfl <;> norm_num
  positivity

/-- First-minimum decomposition of the scan over a list of valid candidates: either no candidate
improves on the running best, or the result is the record of the first candidate of least
error. -/
theorem gain_fold_first_min (mode : ℤ) (g : ℚ) (l : List ℚ) :
    ∀ b : GainBest, (∀ x ∈ l, 0 < gain_ideal mode g x) →
      (l.foldl (fun b r1 => gain_candidate mode g r1 b) b = b ∧
        ∀ x ∈ l, b.best_error ≤ (gain_eval mode g x).best_error) ∨
      (∃ pre a post, l = pre ++ a :: post ∧
        l.foldl (fun b r1 => gain_candidate mode g r1 b) b = gain_eval mode g a ∧
        (gain_eval mode g a).best_error < b.best_error ∧
        (∀ x ∈ pre, (gain_eval mode g a).best_error < (gain_eval mode g x).best_error) ∧
        (∀ x ∈ post, (gain_eval mode g a).best_error ≤ (gain_eval mode g x).best_error)) := by
  induction l with
  | nil => intro b _; left; exact ⟨rfl, fun x hx => absurd hx (List.not_mem_nil x)⟩
  | cons y l ih =>
    intro b hv
    have hy : ¬ gain_ideal mode g y ≤ 0 := not_le.mpr (hv y (List.mem_cons_self _ _))
    have hvl : ∀ x ∈ l, 0 < gain_ideal mode g x := fun x hx => hv x (List.mem_cons_of_mem _ hx)
    rw [List.foldl_cons, gain_candidate_eq, if_neg hy]
    by_cases hlt : (gain_eval mode g y).best_error < b.best_error
    · rw [if_pos hlt]
      right
      rcases ih (gain_eval mode g y) hvl with ⟨hres, hall⟩ | ⟨pre, a, post, hl, hres, ha, hpre, hpost⟩
      · exact ⟨[], y, l, rfl, hres, hlt, fun x hx => absurd hx (List.not_mem_nil x), hall⟩
      · refine ⟨y :: pre, a, post, by rw [hl]; rfl, hres, lt_trans ha hlt, ?_, hpost⟩
        intro x hx
        rcases List.mem_cons.mp hx with rfl | hx
        · exact ha
        · exact hpre x hx
    · rw [if_neg hlt]
      rcases ih b hvl with ⟨hres, hall⟩ | ⟨pre, a, post, hl, hres, ha, hpre, hpost⟩
      · left
        refine ⟨hres, ?_⟩
        intro x hx
        rcases List.mem_cons.mp hx with rfl | hx
        · exact not_lt.mp hlt
        · exact hall x hx
      · right
        refine ⟨y :: pre, a, post, by rw [hl]; rfl, hres, ha, ?_, hpost⟩
        intro x hx
        rcases List.mem_cons.mp hx with rfl | hx
        · exact lt_of_lt_of_le ha (not_lt.mp hlt)
        · exact hpre x hx

/-- The snapped value of a positive target differs from it by less than the target. -/
theorem find_closest_abs_lt (x : ℚ) (hx : 0 < x) : |find_closest_e24_resistor x - x| < x := by
  obtain ⟨hM, -, -⟩ := decade_bounds x hx
  obtain ⟨h, -, -⟩ := find_closest_dist x hx
  linarith

/-- The error of a valid candidate, as a multiple of the distance between the snapped and the
ideal `R2`. -/
theorem gain_eval_error (mode : ℤ) (g r1 : ℚ) (hr1 : 0 < r1) (hg : 0 < g) :
    (gain_eval mode g r1).best_error =
      |find_closest_e24_resistor (gain_ideal mode g r1) - gain_ideal mode g r1| / (r1 * g) *
        100 := by
  have hrg : 0 < r1 * g := by positivity
  unfold gain_eval gain_ideal
  by_cases hm : mode = 1
  · simp only [hm, if_true]
    have : (1.0 + find_closest_e24_resistor (r1 * (g - 1.0)) / r1 - g) / g =
        (find_closest_e24_resistor (r1 * (g - 1.0)) - r1 * (g - 1.0)) / (r1 * g) := by
      field_simp
      ring
    rw [this, abs_div, abs_of_pos hrg]
    norm_num
  · simp only [hm, if_false]
    have : (find_closest_e24_resistor (r1 * g) / r1 - g) / g =
        (find_closest_e24_resistor (r1 * g) - r1 * g) / (r1 * g) := by
      field_simp
    rw [this, abs_div, abs_of_pos hrg]
    norm_num

/-- Every valid candidate has an error below the initial `best_error = 100`. -/
theorem gain_eval_error_lt (mode : ℤ) (g r1 : ℚ) (hr1 : 0 < r1)
    (hk : 0 < (if mode = 1 then g - 1 else g)) :
    (gain_eval mode g r1).best_error < 100 := by
  have hg : 0 < g := by
    by_cases hm : mode = 1
    · rw [if_pos hm] at hk; linarith
    · rw [if_neg hm] at hk; exact hk
  have hrg : 0 < r1 * g := by positivity
  have hid : 0 < gain_ideal mode g r1 ∧ gain_ideal mode g r1 ≤ r1 * g := by
    unfold gain_ideal
    by_cases hm : mode = 1
    · rw [if_pos hm] at hk ⊢
      norm_num
      exact ⟨by positivity, by nlinarith⟩
    · rw [if_neg hm] at hk ⊢
      exact ⟨by positivity, le_refl _⟩
  rw [gain_eval_error mode g r1 hr1 hg]
  have hlt := find_closest_abs_lt _ hid.1
  have : |find_closest_e24_resistor (gain_ideal mode g r1) - gain_ideal mode g r1| / (r1 * g)
      < 1 := by
    rw [div_lt_one hrg]; linarith [hid.2]
  linarith

theorem gain_ideal_pos (mode : ℤ) (g r1 : ℚ) (hr1 : 0 < r1)
    (hk : 0 < (if mode = 1 then g - 1 else g)) : 0 < gain_ideal mode g r1 := by
  unfold gain_ideal
  by_cases hm : mode = 1
  · rw [if_pos hm] at hk ⊢; norm_num; positivity
  · rw [if_neg hm] at hk ⊢; positivity

/-- Once the running best has error 0 no candidate replaces it. -/
theorem gain_fold_locked (mode : ℤ) (g : ℚ) (l : List ℚ) :
    ∀ b : GainBest, b.best_error ≤ 0 →
      l.foldl (fun b r1 => gain_candidate mode g r1 b) b = b := by
  induction l with
  | nil => intro b _; rfl
  | cons y l ih =>
    intro b hb
    have hstep : gain_candidate mode g y b = b := by
      rw [gain_candidate_eq]
      by_cases hy : gain_ideal mode g y ≤ 0
      · rw [if_pos hy]
      · rw [if_neg hy, if_neg]
        have h0 : 0 ≤ (gain_eval mode g y).best_error := by
          unfold gain_eval
          exact mul_nonneg (abs_nonneg _) (by norm_num)
        exact not_lt.mpr (le_trans hb h0)
    rw [List.foldl_cons, hstep]
    exact ih b hb

theorem gain_r1_list_head : ∃ tl, gain_r1_list = 1000 :: tl := by
  unfold gain_r1_list multipliers
  rw [E24_BASE_split]
  simp only [List.flatMap_cons, List.map_cons, List.cons_append]
  norm_num

/-- When no candidate has a positive ideal `R2` the search returns its initial values. -/
theorem gain_search_all_skipped (mode : ℤ) (g : ℚ)
    (h : ∀ r1 ∈ gain_r1_list, gain_ideal mode g r1 ≤ 0) :
    gain_search mode g =
      { best_error := 100.0, best_r1 := 0, best_r2 := 0, best_act_gain := 0 } := by
  rw [gain_search_eq_foldl]
  generalize ({ best_error := 100.0, best_r1 := 0, best_r2 := 0, best_act_gain := 0 } : GainBest)
    = b0
  revert h
  induction gain_r1_list with
  | nil => intro _; rfl
  | cons y l ih =>
    intro h
    rw [List.foldl_cons, gain_candidate_eq, if_pos (h y (List.mem_cons_self _ _))]
    exact ih (fun x hx => h x (List.mem_cons_of_mem _ hx))

/-- C12: for target gain 11 in non-inverting mode the search returns `R1 = 1000`, `R2 = 10000`,
actual gain 11 and error 0; this is the first candidate of the scan, and no later candidate
replaces it. -/
theorem gain_search_eleven :
    gain_search 1 11 =
      { best_error := 0, best_r1 := 1000, best_r2 := 10000, best_act_gain := 11 } ∧
    menu_item_6_search 1 11 = some (gain_search 1 11) ∧
    ∃ tl, gain_r1_list = 1000 :: tl ∧
      gain_candidate 1 11 1000
          { best_error := 100.0, best_r1 := 0, best_r2 := 0, best_act_gain := 0 } =
        { best_error := 0, best_r1 := 1000, best_r2 := 10000, best_act_gain := 11 } ∧
      ∀ r1 ∈ tl, gain_candidate 1 11 r1
          { best_error := 0, best_r1 := 1000, best_r2 := 10000, best_act_gain := 11 } =
        { best_error := 0, best_r1 := 1000, best_r2 := 10000, best_act_gain := 11 } := by
  have hfix : find_closest_e24_resistor 10000 = 10000 := by
    have h := find_closest_fixed 1 (by norm_num [E24_BASE]) 4
    norm_num at h
    exact h
  have hfirst : gain_candidate 1 11 1000
      { best_error := 100.0, best_r1 := 0, best_r2 := 0, best_act_gain := 0 } =
      { best_error := 0, best_r1 := 1000, best_r2 := 10000, best_act_gain := 11 } := by
    norm_num [gain_candidate, hfix]
  obtain ⟨tl, htl⟩ := gain_r1_list_head
  have hsearch : gain_search 1 11 =
      { best_error := 0, best_r1 := 1000, best_r2 := 10000, best_act_gain := 11 } := by
    rw [gain_search_eq_foldl, htl, List.foldl_cons, hfirst]
    exact gain_fold_locked 1 11 tl _ (le_refl _)
  refine ⟨hsearch, ?_, tl, htl, hfirst, ?_⟩
  · norm_num [menu_item_6_search]
  · intro r1 _
    exact gain_fold_locked 1 11 [r1] _ (le_refl (0 : ℚ))

/-- C14 (counterexample): for target gain 1 in non-inverting mode, which passes the validation,
every candidate is skipped and the search returns `R1 = 0`, `R2 = 0`, which is no E24 mantissa
times 1k, 10k or 100k. -/
theorem gain_search_returns_no_candidate :
    menu_item_6_search 1 1 = some (gain_search 1 1) ∧
    (gain_search 1 1).best_r1 = 0 ∧ (gain_search 1 1).best_r2 = 0 ∧
    ¬ ∃ e ∈ E24_BASE, ∃ m ∈ multipliers, (gain_search 1 1).best_r1 = e * m := by
  have h := gain_search_all_skipped 1 1 (fun r1 _ => by norm_num [gain_ideal])
  refine ⟨by norm_num [menu_item_6_search], by rw [h], by rw [h], ?_⟩
  rw [h]
  rintro ⟨e, he, m, hm, heq⟩
  have hpos := gain_r1_list_pos (e * m) ((gain_r1_list_mem _).mpr ⟨e, he, m, hm, rfl⟩)
  simp only at heq
  linarith

/-- The exact-arithmetic instance of the first-minimiser property, where the error of every
valid candidate is below 100: when the ideal `R2` of the candidates is positive (non-inverting
mode with gain above 1, any other mode with positive gain), the search returns a candidate `r1` of the
scan list, an E24 mantissa times 1k, 10k or 100k, together with the snapped ideal `R2` for it;
its error is strictly below that of every candidate scanned before it and at most that of every
candidate scanned after it. -/
theorem gain_search_first_minimiser (mode : ℤ) (g : ℚ)
    (hk : 0 < (if mode = 1 then g - 1 else g)) :
    ∃ pre r1 post, gain_r1_list = pre ++ r1 :: post ∧
      (∃ e ∈ E24_BASE, ∃ m ∈ multipliers, r1 = e * m) ∧
      0 < gain_ideal mode g r1 ∧
      (gain_search mode g).best_r1 = r1 ∧
      (gain_search mode g).best_r2 = find_closest_e24_resistor (gain_ideal mode g r1) ∧
      (gain_search mode g).best_error = (gain_eval mode g r1).best_error ∧
      (∀ x ∈ pre, (gain_eval mode g r1).best_error < (gain_eval mode g x).best_error) ∧
      (∀ x ∈ post, (gain_eval mode g r1).best_error ≤ (gain_eval mode g x).best_error) := by
  have hvalid : ∀ x ∈ gain_r1_list, 0 < gain_ideal mode g x :=
    fun x hx => gain_ideal_pos mode g x (gain_r1_list_pos x hx) hk
  rw [gain_search_eq_foldl]
  rcases gain_fold_first_min mode g gain_r1_list
      { best_error := 100.0, best_r1 := 0, best_r2 := 0, best_act_gain := 0 } hvalid with
    ⟨-, hall⟩ | ⟨pre, a, post, hl, hres, -, hpre, hpost⟩
  · exfalso
    obtain ⟨tl, htl⟩ := gain_r1_list_head
    have hmem : (1000 : ℚ) ∈ gain_r1_list := by rw [htl]; exact List.mem_cons_self _ _
    have h1 := hall 1000 hmem
    have h2 := gain_eval_error_lt mode g 1000 (by norm_num) hk
    norm_num at h1
    linarith
  · have hmem : a ∈ gain_r1_list := by rw [hl]; simp
    refine ⟨pre, a, post, hl, (gain_r1_list_mem a).mp hmem, hvalid a hmem, ?_, ?_, ?_, hpre,
      hpost⟩
    · rw [hres]; rfl
    · rw [hres]; rfl
    · rw [hres]

theorem gain_search_first_minimiser_witness :
    (0 : ℚ) < (if (1 : ℤ) = 1 then (11 : ℚ) - 1 else 11) ∧
    ∃ pre r1 post, gain_r1_list = pre ++ r1 :: post ∧
      (∃ e ∈ E24_BASE, ∃ m ∈ multipliers, r1 = e * m) ∧
      0 < gain_ideal 1 11 r1 ∧
      (gain_search 1 11).best_r1 = r1 ∧
      (gain_search 1 11).best_r2 = find_closest_e24_resistor (gain_ideal 1 11 r1) ∧
      (gain_search 1 11).best_error = (gain_eval 1 11 r1).best_error ∧
      (∀ x ∈ pre, (gain_eval 1 11 r1).best_error < (gain_eval 1 11 x).best_error) ∧
      (∀ x ∈ post, (gain_eval 1 11 r1).best_error ≤ (gain_eval 1 11 x).best_error) :=
  ⟨by norm_num, gain_search_first_minimiser 1 11 (by norm_num)⟩

/-- The snapped value is at least as near to a positive target as any series value (the
distance part of the nearest-value property, for use in the gain search). -/
theorem find_closest_le_candidate (x : ℚ) (hx : 0 < x) (m : ℚ) (hm : m ∈ E24_BASE) (j : ℤ) :
    |find_closest_e24_resistor x - x| ≤ |m * 10 ^ j - x| := by
  obtain ⟨hM, hlo, hhi⟩ := decade_bounds x hx
  obtain ⟨hm1, hm10⟩ := E24_BASE_bounds m hm
  obtain ⟨dA, dB, -⟩ := find_closest_dist x hx
  have hj : (0 : ℚ) < 10 ^ j := by positivity
  rcases lt_trichotomy j (Int.log 10 x) with hlt | heq | hgt
  · have hp : (10 : ℚ) ^ (j + 1) ≤ 10 ^ Int.log 10 x :=
      zpow_le_zpow_right₀ (by norm_num) (by omega)
    rw [zpow_add_one₀ (by norm_num)] at hp
    have hv : m * 10 ^ j < 10 ^ Int.log 10 x := by nlinarith
    rw [abs_of_neg (by linarith : m * 10 ^ j - x < 0)]
    linarith
  · subst heq
    rcases find_closest_cases x hx with ⟨c, -, hr, hmin, -, -⟩ | ⟨hr, hlt⟩
    · rw [hr, abs_scaled c _ x hM, abs_scaled m _ x hM]
      exact mul_le_mul_of_nonneg_left (hmin m hm) hM.le
    · have hs := mul_le_mul_of_nonneg_left (hlt m hm).le hM.le
      rw [← abs_scaled 10 _ x hM, ← abs_scaled m _ x hM] at hs
      rw [hr, one_mul, mul_comm]
      exact hs
  · have hp : (10 : ℚ) ^ (Int.log 10 x + 1) ≤ 10 ^ j :=
      zpow_le_zpow_right₀ (by norm_num) (by omega)
    rw [zpow_add_one₀ (by norm_num)] at hp
    have hv : 10 ^ Int.log 10 x * 10 ≤ m * 10 ^ j := by nlinarith
    rw [abs_of_pos (by linarith : 0 < m * 10 ^ j - x)]
    linarith

theorem E24_BASE_mem_tenths (n : ℤ)
    (h : n ∈ ([10, 11, 12, 13, 15, 16, 18, 20, 22, 24, 27, 30, 33, 36, 39, 43, 47, 51, 56, 62,
      68, 75, 82, 91] : List ℤ)) : (n : ℚ) / 10 ∈ E24_BASE := by
  have hl : E24_BASE = List.map (fun n : ℤ => (n : ℚ) / 10)
      [10, 11, 12, 13, 15, 16, 18, 20, 22, 24, 27, 30, 33, 36, 39, 43, 47, 51, 56, 62, 68, 75,
        82, 91] := by
    norm_num [E24_BASE]
  rw [hl]
  exact List.mem_map_of_mem _ h

/-- One interval of the cover: for mantissas `ne / 10`, `nc / 10` and a decade shift `s`, every
`t` with `20 nc 10^s / (21 ne) ≤ t ≤ 20 nc 10^s / (19 ne)` has `ne/10 * t` within 5% of the
series value `nc/10 * 10^s`. -/
theorem gain_cover_case (ne nc : ℤ) (s : ℤ)
    (hne : ne ∈ ([10, 11, 12, 13, 15, 16, 18, 20, 22, 24, 27, 30, 33, 36, 39, 43, 47, 51, 56,
      62, 68, 75, 82, 91] : List ℤ))
    (hnc : nc ∈ ([10, 11, 12, 13, 15, 16, 18, 20, 22, 24, 27, 30, 33, 36, 39, 43, 47, 51, 56,
      62, 68, 75, 82, 91] : List ℤ)) (t : ℚ)
    (hlo : 20 * (nc : ℚ) * 10 ^ s ≤ 21 * (ne : ℚ) * t)
    (hhi : 19 * (ne : ℚ) * t ≤ 20 * (nc : ℚ) * 10 ^ s) :
    ∃ e ∈ E24_BASE, ∃ c ∈ E24_BASE, ∃ s : ℤ, |c * 10 ^ s - e * t| ≤ e * t / 20 := by
  refine ⟨_, E24_BASE_mem_tenths ne hne, _, E24_BASE_mem_tenths nc hnc, s, ?_⟩
  rw [abs_le]
  constructor <;> linarith

set_option maxHeartbeats 1000000 in
/-- Cover of a decade: every `t` in `[1, 10)` has a mantissa `e` such that `e * t` is within 5%
of a series value. -/
theorem gain_cover_normalized (t : ℚ) (h1 : 1 ≤ t) (h10 : t < 10) :
    ∃ e ∈ E24_BASE, ∃ c ∈ E24_BASE, ∃ s : ℤ, |c * 10 ^ s - e * t| ≤ e * t / 20 := by
  rcases le_or_lt t (21 / 20) with h | hb0
  · exact gain_cover_case 10 10 0 (by decide) (by decide) t
      (by norm_num; linarith) (by norm_num; linarith)
  clear h1
  rcases le_or_lt t (23 / 20) with h | hb1
  · exact gain_cover_case 10 11 0 (by decide) (by decide) t
      (by norm_num; linarith) (by norm_num; linarith)
  clear hb0
  rcases le_or_lt t (63 / 50) with h | hb2
  · exact gain_cover_case 68 82 0 (by decide) (by decide) t
      (by norm_num; linarith) (by norm_num; linarith)
  clear hb1
  rcases le_or_lt t (139 / 100) with h | hb3
  · exact gain_cover_case 62 82 0 (by decide) (by decide) t
      (by norm_num; linarith) (by norm_num; linarith)
  clear hb2
  rcases le_or_lt t (153 / 100) with h | hb4
  · exact gain_cover_case 11 16 0 (by decide) (by decide) t
      (by norm_num; linarith) (by norm_num; linarith)
  clear hb3
  rcases le_or_lt t (42 / 25) with h | hb5
  · exact gain_cover_case 10 16 0 (by decide) (by decide) t
      (by norm_num; linarith) (by norm_num; linarith)
  clear hb4
  rcases le_or_lt t (37 / 20) with h | hb6
  · exact gain_cover_case 91 16 1 (by decide) (by decide) t
      (by norm_num; linarith) (by norm_num; linarith)
  clear hb5
  rcases le_or_lt t (203 / 100) with h | hb7
  · exact gain_cover_case 47 91 0 (by decide) (by decide) t
      (by norm_num; linarith) (by norm_num; linarith)
  clear hb6
  rcases le_or_lt t (223 / 100) with h | hb8
  · exact gain_cover_case 47 10 1 (by decide) (by decide) t
      (by norm_num; linarith) (by norm_num; linarith)
  clear hb7
  rcases le_or_lt t (123 / 50) with h | hb9
  · exact gain_cover_case 47 11 1 (by decide) (by decide) t
      (by norm_num; linarith) (by norm_num; linarith)
  clear hb8
  rcases le_or_lt t (271 / 100) with h | hb10
  · exact gain_cover_case 62 16 1 (by decide) (by decide) t
      (by norm_num; linarith) (by norm_num; linarith)
  clear hb9
  rcases le_or_lt t (149 / 50) with h | hb11
  · exact gain_cover_case 18 51 0 (by decide) (by decide) t
      (by norm_num; linarith) (by norm_num; linarith)
  clear hb10
  rcases le_or_lt t (82 / 25) with h | hb12
  · exact gain_cover_case 24 75 0 (by decide) (by decide) t
      (by norm_num; linarith) (by norm_num; linarith)
  clear hb11
  rcases le_or_lt t (359 / 100) with h | hb13
  · exact gain_cover_case 24 82 0 (by decide) (by decide) t
      (by norm_num; linarith) (by norm_num; linarith)
  clear hb12
  rcases le_or_lt t (197 / 50) with h | hb14
  · exact gain_cover_case 20 75 0 (by decide) (by decide) t
      (by norm_num; linarith) (by norm_num; linarith)
  clear hb13
  rcases le_or_lt t (87 / 20) with h | hb15
  · exact gain_cover_case 22 91 0 (by decide) (by decide) t
      (by norm_num; linarith) (by norm_num; linarith)
  clear hb14
  rcases le_or_lt t (479 / 100) with h | hb16
  · exact gain_cover_case 18 82 0 (by decide) (by decide) t
      (by norm_num; linarith) (by norm_num; linarith)
  clear hb15
  rcases le_or_lt t (263 / 50) with h | hb17
  · exact gain_cover_case 15 75 0 (by decide) (by decide) t
      (by norm_num; linarith) (by norm_num; linarith)
  clear hb16
  rcases le_or_lt t (289 / 50) with h | hb18
  · exact gain_cover_case 20 11 1 (by decide) (by decide) t
      (by norm_num; linarith) (by norm_num; linarith)
  clear hb17
  rcases le_or_lt t (319 / 50) with h | hb19
  · exact gain_cover_case 15 91 0 (by decide) (by decide) t
      (by norm_num; linarith) (by norm_num; linarith)
  clear hb18
  rcases le_or_lt t (701 / 100) with h | hb20
  · exact gain_cover_case 15 10 1 (by decide) (by decide) t
      (by norm_num; linarith) (by norm_num; linarith)
  clear hb19
  rcases le_or_lt t (771 / 100) with h | hb21
  · exact gain_cover_case 15 11 1 (by decide) (by decide) t
      (by norm_num; linarith) (by norm_num; linarith)
  clear hb20
  rcases le_or_lt t (421 / 50) with h | hb22
  · exact gain_cover_case 15 12 1 (by decide) (by decide) t
      (by norm_num; linarith) (by norm_num; linarith)
  clear hb21
  rcases le_or_lt t (228 / 25) with h | hb23
  · exact gain_cover_case 15 13 1 (by decide) (by decide) t
      (by norm_num; linarith) (by norm_num; linarith)
  clear hb22
  rcases le_or_lt t (493 / 50) with h | hb24
  · exact gain_cover_case 16 15 1 (by decide) (by decide) t
      (by norm_num; linarith) (by norm_num; linarith)
  clear hb23
  exact gain_cover_case 10 10 1 (by decide) (by decide) t
    (by norm_num; linarith) (by norm_num; linarith)

/-- Cover of the positive axis: every `y > 0` has a mantissa `e` such that `e * y` is within 5%
of a series value. -/
theorem gain_cover (y : ℚ) (hy : 0 < y) :
    ∃ e ∈ E24_BASE, ∃ c ∈ E24_BASE, ∃ j : ℤ, |c * 10 ^ j - e * y| ≤ e * y / 20 := by
  obtain ⟨hM, -, -⟩ := decade_bounds y hy
  obtain ⟨h1, h10⟩ := normalized_bounds y hy
  obtain ⟨e, he, c, hc, s, h⟩ := gain_cover_normalized _ h1 h10
  refine ⟨e, he, c, hc, s + Int.log 10 y, ?_⟩
  have hs : (0 : ℚ) < 10 ^ s := by positivity
  have key : c * 10 ^ (s + Int.log 10 y) - e * y =
      10 ^ Int.log 10 y * (c * 10 ^ s - e * (y / 10 ^ Int.log 10 y)) := by
    rw [zpow_add₀ (by norm_num)]
    field_simp
    ring
  rw [key, abs_mul, abs_of_pos hM]
  have := mul_le_mul_of_nonneg_left h hM.le
  calc 10 ^ Int.log 10 y * |c * 10 ^ s - e * (y / 10 ^ Int.log 10 y)|
      ≤ 10 ^ Int.log 10 y * (e * (y / 10 ^ Int.log 10 y) / 20) := this
    _ = e * y / 20 := by field_simp; ring

/-- The result of the search has an error at most that of every valid candidate. -/
theorem gain_search_error_le (mode : ℤ) (g : ℚ) (hk : 0 < (if mode = 1 then g - 1 else g))
    (x : ℚ) (hx : x ∈ gain_r1_list) :
    (gain_search mode g).best_error ≤ (gain_eval mode g x).best_error := by
  have hvalid : ∀ x ∈ gain_r1_list, 0 < gain_ideal mode g x :=
    fun x hx => gain_ideal_pos mode g x (gain_r1_list_pos x hx) hk
  rw [gain_search_eq_foldl]
  rcases gain_fold_first_min mode g gain_r1_list
      { best_error := 100.0, best_r1 := 0, best_r2 := 0, best_act_gain := 0 } hvalid with
    ⟨hres, hall⟩ | ⟨pre, a, post, hl, hres, -, hpre, hpost⟩
  · rw [hres]; exact hall x hx
  · rw [hres]
    rw [hl, List.mem_append, List.mem_cons] at hx
    rcases hx with h | rfl | h
    · exact (hpre x h).le
    · exact le_refl _
    · exact hpost x h

/-- The 5% bound of the search whenever the candidates are valid. -/
theorem gain_search_error_le_five (mode : ℤ) (g : ℚ)
    (hk : 0 < (if mode = 1 then g - 1 else g)) : (gain_search mode g).best_error ≤ 5 := by
  have hg : 0 < g := by
    by_cases hm : mode = 1
    · rw [if_pos hm] at hk; linarith
    · rw [if_neg hm] at hk; exact hk
  have hy : 0 < 1000 * (if mode = 1 then g - 1 else g) := by positivity
  obtain ⟨e, he, c, hc, j, hcov⟩ := gain_cover _ hy
  have he1 := (E24_BASE_bounds e he).1
  have hr1 : (0 : ℚ) < e * 1000 := by positivity
  have hmem : e * 1000 ∈ gain_r1_list :=
    (gain_r1_list_mem _).mpr ⟨e, he, 1000, by norm_num [multipliers], rfl⟩
  have hid : gain_ideal mode g (e * 1000) = e * (1000 * (if mode = 1 then g - 1 else g)) := by
    unfold gain_ideal
    by_cases hm : mode = 1
    · simp only [hm, if_true]; norm_num; ring
    · simp only [hm, if_false]; ring
  have hidpos : 0 < gain_ideal mode g (e * 1000) := gain_ideal_pos mode g _ hr1 hk
  have hidle : gain_ideal mode g (e * 1000) ≤ e * 1000 * g := by
    rw [hid]
    by_cases hm : mode = 1
    · simp only [hm, if_true]; nlinarith
    · simp only [hm, if_false]; linarith
  have hnear := find_closest_le_candidate _ hidpos c hc j
  rw [← hid] at hcov
  have hdist : |find_closest_e24_resistor (gain_ideal mode g (e * 1000)) -
      gain_ideal mode g (e * 1000)| ≤ e * 1000 * g / 20 := by
    linarith
  have hrg : 0 < e * 1000 * g := by positivity
  refine le_trans (gain_search_error_le mode g hk _ hmem) ?_
  rw [gain_eval_error mode g _ hr1 hg]
  have : |find_closest_e24_resistor (gain_ideal mode g (e * 1000)) -
      gain_ideal mode g (e * 1000)| / (e * 1000 * g) ≤ 1 / 20 := by
    rw [div_le_iff₀ hrg]; linarith
  linarith

/-- C13 (amended): for the inverting mode and every target gain `1 ≤ g ≤ 1000`, and for the
non-inverting mode and every target gain `1 < g ≤ 1000`, the error of the returned pair is at
most 5 (percent). -/
theorem gain_search_error_bound (mode : ℤ) (g : ℚ) (_hmode : mode = 1 ∨ mode = 2)
    (hg1 : 1 ≤ g) (_hg : g ≤ 1000) (hne : mode = 1 → g ≠ 1) :
    (gain_search mode g).best_error ≤ 5.0 := by
  have hk : 0 < (if mode = 1 then g - 1 else g) := by
    by_cases hm : mode = 1
    · rw [if_pos hm]
      have := hne hm
      have : 1 < g := lt_of_le_of_ne hg1 (Ne.symm this)
      linarith
    · rw [if_neg hm]; linarith
  have h := gain_search_error_le_five mode g hk
  norm_num
  exact h

theorem gain_search_error_bound_witness :
    ((2 : ℤ) = 1 ∨ (2 : ℤ) = 2) ∧ (1 : ℚ) ≤ 7 / 5 ∧ (7 / 5 : ℚ) ≤ 1000 ∧
    ((2 : ℤ) = 1 → (7 / 5 : ℚ) ≠ 1) ∧ (gain_search 2 (7 / 5)).best_error ≤ 5.0 :=
  ⟨by decide, by norm_num, by norm_num, by decide,
    gain_search_error_bound 2 (7 / 5) (by decide) (by norm_num) (by norm_num) (by decide)⟩

/-- C13 (counterexample): target gain 1 in non-inverting mode passes the validation; every
candidate is skipped, and the search returns its initial error 100, which is above 5. -/
theorem gain_search_error_at_unity :
    ((1 : ℚ) ≤ 1 ∧ (1 : ℚ) ≤ 1000) ∧
    menu_item_6_search 1 1 = some (gain_search 1 1) ∧
    (gain_search 1 1).best_error = 100 ∧ ¬ (gain_search 1 1).best_error ≤ 5.0 := by
  have h := gain_search_all_skipped 1 1 (fun r1 _ => by norm_num [gain_ideal])
  refine ⟨by norm_num, by norm_num [menu_item_6_search], by rw [h]; norm_num, ?_⟩
  rw [h]
  norm_num

/-! ### Colour band codec on NaN -/

theorem bands_of_normalised_eq (v : ℚ) (exp : ℤ) :
    bands_of_normalised v exp = bands_of_two_digits (c_round v) exp := rfl

/-- C20 (failing input): NaN typed at the "Target Resistance" prompt passes the guard
`target_r <= 0.0`, is returned unchanged by `find_closest_e24_resistor`, and is accepted by
`resistor_to_bands`, which returns 1 with the digits of the converted NaN: with the x86-64
conversion `(int)NaN = -2147483648` the outputs are `d1 = -214748364`, `d2 = -8`,
`mult_idx = 0`, so `d1` and `d2` are outside `0..9`. -/
theorem resistor_to_bands_nan_digits (fuel : ℕ) :
    find_closest_e24_resistor_c CDouble.nan = CDouble.nan ∧
    resistor_to_bands_c fuel (-2147483648) (find_closest_e24_resistor_c CDouble.nan) =
      some (BandResult.bands (-214748364) (-8) 0) ∧
    ¬ ((1 : ℤ) ≤ -214748364) ∧ ¬ ((0 : ℤ) ≤ -8) := by
  refine ⟨rfl, ?_, by decide, by decide⟩
  simp only [find_closest_e24_resistor_c, resistor_to_bands_c, bands_of_two_digits]
  decide

/-- Whatever integer below 10 the conversion of NaN gives, the encoder reports success with a
first digit below 1. -/
theorem resistor_to_bands_nan_any (fuel : ℕ) (t : ℤ) (ht : t < 10) :
    ∃ d1 d2, resistor_to_bands_c fuel t CDouble.nan = some (BandResult.bands d1 d2 0) ∧
      d1 < 1 := by
  have h100 : ¬ (100 ≤ t) := by omega
  refine ⟨Int.tdiv t 10, Int.tmod t 10, ?_, ?_⟩
  · simp [resistor_to_bands_c, bands_of_two_digits, h100]
  · rcases le_or_lt 0 t with h0 | h0
    · rw [Int.tdiv_eq_ediv h0 (by norm_num)]; omega
    · have : Int.tdiv t 10 ≤ 0 := by
        rw [← Int.neg_neg t, Int.neg_tdiv]
        have := Int.tdiv_nonneg (by omega : 0 ≤ -t) (by norm_num : (0 : ℤ) ≤ 10)
        omega
      omega

/-! ### Transient simulator: sub-steps between recorded samples -/

theorem euler_substep_eq_semi_implicit (type : ℤ) (vs r l c h : ℚ) (s : SimState) :
    euler_substep type vs r l c h s = semi_implicit_euler_step type vs r l c h s := by
  unfold euler_substep semi_implicit_euler_step
  by_cases h1 : type = 1
  · simp only [h1, if_true]
    congr 1
    rw [div_div]; ring
  · by_cases h2 : type = 2
    · subst h2
      simp only [if_neg h1, if_true, ne_eq, not_true_eq_false, if_false]
      congr 1
      ring
    · simp only [if_neg h1, if_neg h2, ne_eq, h2, not_false_eq_true, if_true, if_false]
      congr 1 <;> ring

theorem euler_substeps_eq_iterate (type : ℤ) (vs r l c dt : ℚ) :
    ∀ (k : ℕ) (s : SimState),
      euler_substeps type vs r l c dt k s =
        (semi_implicit_euler_step type vs r l c (dt / 10))^[k] s := by
  intro k
  induction k with
  | zero => intro s; rfl
  | succ k ih =>
    intro s
    rw [euler_substeps, ih, Function.iterate_succ_apply, euler_substep_eq_semi_implicit]

/-- C15 (amended): in the recorded trace, the state `(v_C, i_L)` of sample `i + 1` is obtained
from the state of sample `i` by exactly 10 sub-steps of size `h = t_total / 10000`.  A sub-step
is `v_C + h (Vs - v_C) / (R C)` in RC and `i_L + h (Vs - i_L R) / L` in RL (forward Euler);
in LC and RLC the current takes the forward-Euler step `i_L' = i_L + h (Vs - i_L R - v_C) / L`
and the voltage is advanced with the current after its update, `v_C + h i_L' / C`. -/
theorem substeps_between_samples (type : ℤ) (vs r l c t_total : ℚ) (i : ℕ)
    (hi : i + 1 < SIM_STEPS)
    (_hdiv : (type = 1 → r ≠ 0 ∧ c ≠ 0) ∧ (type = 2 → l ≠ 0) ∧
      (type ≠ 1 ∧ type ≠ 2 → l ≠ 0 ∧ c ≠ 0)) :
    (∃ a b, (menu_item_4_simulate type vs r l c t_total)[i]? = some a ∧
      (menu_item_4_simulate type vs r l c t_total)[i + 1]? = some b ∧
      ({ vc := b.data_vc, il := b.data_il } : SimState) =
        (euler_substep type vs r l c (t_total / 10000))^[10]
          { vc := a.data_vc, il := a.data_il }) ∧
    (∀ s : SimState, (euler_substep 1 vs r l c (t_total / 10000) s).vc =
      s.vc + t_total / 10000 * (vs - s.vc) / (r * c)) ∧
    (∀ s : SimState, (euler_substep 2 vs r l c (t_total / 10000) s).il =
      s.il + t_total / 10000 * (vs - s.il * r) / l) ∧
    (∀ (ty : ℤ) (s : SimState), ty = 3 ∨ ty = 4 →
      (euler_substep ty vs r l c (t_total / 10000) s).il =
        s.il + t_total / 10000 * (vs - s.il * r - s.vc) / l ∧
      (euler_substep ty vs r l c (t_total / 10000) s).vc =
        s.vc + t_total / 10000 *
          (s.il + t_total / 10000 * (vs - s.il * r - s.vc) / l) / c) := by
  have hh : t_total / (SIM_STEPS : ℕ) / 10 = t_total / 10000 := by
    norm_num [SIM_STEPS]; ring
  have hf : ∀ ty : ℤ, euler_substep ty vs r l c (t_total / 10000) =
      semi_implicit_euler_step ty vs r l c (t_total / 10000) :=
    fun ty => funext (euler_substep_eq_semi_implicit ty vs r l c (t_total / 10000))
  simp only [hf]
  refine ⟨?_, fun s => rfl, fun s => rfl, ?_⟩
  · unfold menu_item_4_simulate
    rw [simulate_from_get _ _ _ _ _ _ _ _ i (by omega),
      simulate_from_get _ _ _ _ _ _ _ _ (i + 1) hi]
    refine ⟨_, _, rfl, rfl, ?_⟩
    simp only [snapshot]
    rw [Function.iterate_succ_apply', euler_substeps_eq_iterate, hh]
  · rintro ty s (rfl | rfl) <;> exact ⟨rfl, rfl⟩

theorem substeps_between_samples_witness :
    0 + 1 < SIM_STEPS ∧
    (((1 : ℤ) = 1 → (1000 : ℚ) ≠ 0 ∧ (1 / 1000000 : ℚ) ≠ 0) ∧ ((1 : ℤ) = 2 → (0 : ℚ) ≠ 0) ∧
      ((1 : ℤ) ≠ 1 ∧ (1 : ℤ) ≠ 2 → (0 : ℚ) ≠ 0 ∧ (1 / 1000000 : ℚ) ≠ 0)) ∧
    (∃ a b, (menu_item_4_simulate 1 5 1000 0 (1 / 1000000) (1 / 200))[0]? = some a ∧
      (menu_item_4_simulate 1 5 1000 0 (1 / 1000000) (1 / 200))[0 + 1]? = some b ∧
      ({ vc := b.data_vc, il := b.data_il } : SimState) =
        (euler_substep 1 5 1000 0 (1 / 1000000) (1 / 200 / 10000))^[10]
          { vc := a.data_vc, il := a.data_il }) := by
  have hdiv : ((1 : ℤ) = 1 → (1000 : ℚ) ≠ 0 ∧ (1 / 1000000 : ℚ) ≠ 0) ∧
      ((1 : ℤ) = 2 → (0 : ℚ) ≠ 0) ∧
      ((1 : ℤ) ≠ 1 ∧ (1 : ℤ) ≠ 2 → (0 : ℚ) ≠ 0 ∧ (1 / 1000000 : ℚ) ≠ 0) :=
    ⟨fun _ => ⟨by norm_num, by norm_num⟩, fun h => absurd h (by decide),
      fun h => absurd rfl h.1⟩
  have hi : 0 + 1 < SIM_STEPS := by norm_num [SIM_STEPS]
  exact ⟨hi, hdiv,
    (substeps_between_samples 1 5 1000 0 (1 / 1000000) (1 / 200) 0 hi hdiv).1⟩

/-! ### Gain search over arbitrary rounding -/

theorem gain_search_ops_exact (mode : ℤ) (g : ℚ) :
    gain_search_ops exact_ops E24_BASE mode g = gain_search mode g := rfl

theorem gain_candidate_ops_eq (ops : DoubleOps) (mode : ℤ) (g r1 : ℚ) (b : GainBest) :
    gain_candidate_ops ops mode g r1 b =
      if gain_ideal_ops ops mode g r1 ≤ 0 then b
      else if (gain_eval_ops ops mode g r1).best_error < b.best_error then
        gain_eval_ops ops mode g r1
      else b :=
  rfl

theorem gain_search_ops_eq_foldl (ops : DoubleOps) (table : List ℚ) (mode : ℤ) (g : ℚ) :
    gain_search_ops ops table mode g =
      (gain_r1_list_ops ops table).foldl (fun b r1 => gain_candidate_ops ops mode g r1 b)
        { best_error := 100.0, best_r1 := 0, best_r2 := 0, best_act_gain := 0 } := by
  unfold gain_search_ops gain_r1_list_ops
  generalize ({ best_error := 100.0, best_r1 := 0, best_r2 := 0, best_act_gain := 0 } : GainBest)
    = b0
  induction multipliers generalizing b0 with
  | nil => rfl
  | cons m ms ih =>
    rw [List.foldl_cons, List.flatMap_cons, List.foldl_append, List.foldl_map]
    exact ih _

theorem gain_r1_list_ops_mem (ops : DoubleOps) (table : List ℚ) (r1 : ℚ) :
    r1 ∈ gain_r1_list_ops ops table ↔ ∃ e ∈ table, ∃ m ∈ multipliers, r1 = ops.mul e m := by
  unfold gain_r1_list_ops
  simp only [List.mem_flatMap, List.mem_map]
  constructor
  · rintro ⟨m, hm, e, he, rfl⟩; exact ⟨e, he, m, hm, rfl⟩
  · rintro ⟨e, he, m, hm, rfl⟩; exact ⟨m, hm, e, he, rfl⟩

/-- First-minimum decomposition of the scan over any list of candidates, skipped ones included:
either no valid candidate improves on the running best, or the result is the record of the first
valid candidate of least error. -/
theorem gain_fold_ops_first_min (ops : DoubleOps) (mode : ℤ) (g : ℚ) (l : List ℚ) :
    ∀ b : GainBest,
      (l.foldl (fun b r1 => gain_candidate_ops ops mode g r1 b) b = b ∧
        ∀ x ∈ l, 0 < gain_ideal_ops ops mode g x →
          b.best_error ≤ (gain_eval_ops ops mode g x).best_error) ∨
      (∃ pre a post, l = pre ++ a :: post ∧ 0 < gain_ideal_ops ops mode g a ∧
        l.foldl (fun b r1 => gain_candidate_ops ops mode g r1 b) b = gain_eval_ops ops mode g a ∧
        (gain_eval_ops ops mode g a).best_error < b.best_error ∧
        (∀ x ∈ pre, 0 < gain_ideal_ops ops mode g x →
          (gain_eval_ops ops mode g a).best_error < (gain_eval_ops ops mode g x).best_error) ∧
        (∀ x ∈ post, 0 < gain_ideal_ops ops mode g x →
          (gain_eval_ops ops mode g a).best_error ≤
            (gain_eval_ops ops mode g x).best_error)) := by
  induction l with
  | nil => intro b; left; exact ⟨rfl, fun x hx => absurd hx (List.not_mem_nil x)⟩
  | cons y l ih =>
    intro b
    rw [List.foldl_cons, gain_candidate_ops_eq]
    by_cases hy : gain_ideal_ops ops mode g y ≤ 0
    · rw [if_pos hy]
      rcases ih b with ⟨hres, hall⟩ | ⟨pre, a, post, hl, hva, hres, ha, hpre, hpost⟩
      · left
        refine ⟨hres, ?_⟩
        intro x hx hvx
        rcases List.mem_cons.mp hx with rfl | hx
        · exact absurd hvx (not_lt.mpr hy)
        · exact hall x hx hvx
      · right
        refine ⟨y :: pre, a, post, by rw [hl]; rfl, hva, hres, ha, ?_, hpost⟩
        intro x hx hvx
        rcases List.mem_cons.mp hx with rfl | hx
        · exact absurd hvx (not_lt.mpr hy)
        · exact hpre x hx hvx
    · rw [if_neg hy]
      by_cases hlt : (gain_eval_ops ops mode g y).best_error < b.best_error
      · rw [if_pos hlt]
        right
        rcases ih (gain_eval_ops ops mode g y) with
          ⟨hres, hall⟩ | ⟨pre, a, post, hl, hva, hres, ha, hpre, hpost⟩
        · exact ⟨[], y, l, rfl, not_le.mp hy, hres, hlt,
            fun x hx => absurd hx (List.not_mem_nil x), hall⟩
        · refine ⟨y :: pre, a, post, by rw [hl]; rfl, hva, hres, lt_trans ha hlt, ?_, hpost⟩
          intro x hx hvx
          rcases List.mem_cons.mp hx with rfl | hx
          · exact ha
          · exact hpre x hx hvx
      · rw [if_neg hlt]
        rcases ih b with ⟨hres, hall⟩ | ⟨pre, a, post, hl, hva, hres, ha, hpre, hpost⟩
        · left
          refine ⟨hres, ?_⟩
          intro x hx hvx
          rcases List.mem_cons.mp hx with rfl | hx
          · exact not_lt.mp hlt
          · exact hall x hx hvx
        · right
          refine ⟨y :: pre, a, post, by rw [hl]; rfl, hva, hres, ha, ?_, hpost⟩
          intro x hx hvx
          rcases List.mem_cons.mp hx with rfl | hx
          · exact lt_of_lt_of_le ha (not_lt.mp hlt)
          · exact hpre x hx hvx

/-- C14 (amended): whatever the rounding of the arithmetic, when some candidate has a positive
ideal `R2` and an error below the initial `best_error = 100`, the search returns a candidate
`r1` of the scan list, the product of a table mantissa and 1k, 10k or 100k, whose ideal `R2` is
positive, together with the snapped ideal `R2` for it; its error is strictly below that of every
valid candidate scanned before it and at most that of every valid candidate scanned after it. -/
theorem gain_search_ops_first_minimiser (ops : DoubleOps) (table : List ℚ) (mode : ℤ) (g : ℚ)
    (h : ∃ x ∈ gain_r1_list_ops ops table, 0 < gain_ideal_ops ops mode g x ∧
      (gain_eval_ops ops mode g x).best_error < 100) :
    ∃ pre r1 post, gain_r1_list_ops ops table = pre ++ r1 :: post ∧
      (∃ e ∈ table, ∃ m ∈ multipliers, r1 = ops.mul e m) ∧
      0 < gain_ideal_ops ops mode g r1 ∧
      (gain_search_ops ops table mode g).best_r1 = r1 ∧
      (gain_search_ops ops table mode g).best_r2 = ops.snap (gain_ideal_ops ops mode g r1) ∧
      (gain_search_ops ops table mode g).best_error = (gain_eval_ops ops mode g r1).best_error ∧
      (∀ x ∈ pre, 0 < gain_ideal_ops ops mode g x →
        (gain_eval_ops ops mode g r1).best_error < (gain_eval_ops ops mode g x).best_error) ∧
      (∀ x ∈ post, 0 < gain_ideal_ops ops mode g x →
        (gain_eval_ops ops mode g r1).best_error ≤ (gain_eval_ops ops mode g x).best_error) := by
  rw [gain_search_ops_eq_foldl]
  rcases gain_fold_ops_first_min ops mode g (gain_r1_list_ops ops table)
      { best_error := 100.0, best_r1 := 0, best_r2 := 0, best_act_gain := 0 } with
    ⟨-, hall⟩ | ⟨pre, a, post, hl, hva, hres, -, hpre, hpost⟩
  · exfalso
    obtain ⟨x, hx, hvx, hex⟩ := h
    have h1 := hall x hx hvx
    norm_num at h1
    linarith
  · have hmem : a ∈ gain_r1_list_ops ops table := by rw [hl]; simp
    refine ⟨pre, a, post, hl, (gain_r1_list_ops_mem ops table a).mp hmem, hva, ?_, ?_, ?_,
      hpre, hpost⟩
    · rw [hres]; rfl
    · rw [hres]; rfl
    · rw [hres]

/-! ### Binary64 arithmetic -/

/-- Sanity of the rounding: the binary64 value of the decimal `0.1`. -/
theorem fl64_tenth : fl64 (1 / 10) = 3602879701896397 / 36028797018963968 := by decide!

/-- The binary64 scan reproduces the double rounding at 955: the quotient `955 / 100` rounds
above 9.55, so the code rolls over to 1000 where exact arithmetic stays at 910. -/
theorem find_closest_f64_955 : find_closest_e24_resistor_f64 955 = 1000 := by decide!

/-- The halving count brackets its argument between consecutive powers of two. -/
theorem nat_log2_fuel_spec : ∀ (fuel n : ℕ), n ≤ fuel → 1 ≤ n →
    2 ^ nat_log2_fuel fuel n ≤ n ∧ n < 2 ^ (nat_log2_fuel fuel n + 1) := by
  intro fuel
  induction fuel with
  | zero => intro n h0 h1; omega
  | succ fuel ih =>
    intro n hn h1
    unfold nat_log2_fuel
    by_cases h2 : n < 2
    · rw [if_pos h2]
      constructor
      · simpa using h1
      · simpa using h2
    · rw [if_neg h2]
      obtain ⟨hlo, hhi⟩ := ih (n / 2) (by omega) (by omega)
      constructor
      · rw [pow_succ]; omega
      · rw [pow_succ]; omega

/-- The division count brackets its argument between consecutive powers of ten. -/
theorem nat_log10_fuel_spec : ∀ (fuel n : ℕ), n ≤ fuel → 1 ≤ n →
    10 ^ nat_log10_fuel fuel n ≤ n ∧ n < 10 ^ (nat_log10_fuel fuel n + 1) := by
  intro fuel
  induction fuel with
  | zero => intro n h0 h1; omega
  | succ fuel ih =>
    intro n hn h1
    unfold nat_log10_fuel
    by_cases h2 : n < 10
    · rw [if_pos h2]
      constructor
      · simpa using h1
      · simpa using h2
    · rw [if_neg h2]
      obtain ⟨hlo, hhi⟩ := ih (n / 10) (by omega) (by omega)
      constructor
      · rw [pow_succ]; omega
      · rw [pow_succ]; omega

/-- Bounds of a rational from the digit counts of its numerator and denominator in base `b`. -/
theorem ratio_pow_bounds (b : ℚ) (hb : 1 < b) (x : ℚ) (p q : ℕ)
    (hp : b ^ p ≤ (x.num.natAbs : ℚ) ∧ (x.num.natAbs : ℚ) < b ^ (p + 1))
    (hq : b ^ q ≤ (x.den : ℚ) ∧ (x.den : ℚ) < b ^ (q + 1)) :
    b ^ ((p : ℤ) - (q : ℤ) - 1) < |x| ∧ |x| < b ^ ((p : ℤ) - (q : ℤ) + 1) := by
  have hb0 : (0 : ℚ) < b := by linarith
  have hden : (0 : ℚ) < (x.den : ℚ) := by exact_mod_cast x.den_pos
  have hxe : |x| = (x.num.natAbs : ℚ) / (x.den : ℚ) := by
    rw [Nat.cast_natAbs, Int.cast_abs]
    nth_rewrite 1 [← Rat.num_div_den x]
    rw [abs_div, abs_of_pos hden]
  constructor
  · rw [hxe, lt_div_iff₀ hden]
    have e1 : b ^ ((p : ℤ) - (q : ℤ) - 1) * b ^ (q + 1) = b ^ p := by
      rw [← zpow_natCast b (q + 1), ← zpow_add₀ hb0.ne', ← zpow_natCast b p]
      congr 1; push_cast; ring
    calc b ^ ((p : ℤ) - (q : ℤ) - 1) * (x.den : ℚ)
        < b ^ ((p : ℤ) - (q : ℤ) - 1) * b ^ (q + 1) := by
          apply mul_lt_mul_of_pos_left hq.2; positivity
      _ = b ^ p := e1
      _ ≤ _ := hp.1
  · rw [hxe, div_lt_iff₀ hden]
    have e1 : b ^ ((p : ℤ) - (q : ℤ) + 1) * b ^ q = b ^ (p + 1) := by
      rw [← zpow_natCast b q, ← zpow_add₀ hb0.ne', ← zpow_natCast b (p + 1)]
      congr 1; push_cast; ring
    calc (x.num.natAbs : ℚ) < b ^ (p + 1) := hp.2
      _ = b ^ ((p : ℤ) - (q : ℤ) + 1) * b ^ q := e1.symm
      _ ≤ b ^ ((p : ℤ) - (q : ℤ) + 1) * (x.den : ℚ) := by
          apply mul_le_mul_of_nonneg_left hq.1; positivity

/-- The evaluable decade exponent brackets a positive rational between consecutive powers of
ten. -/
theorem floor_log10_bounds (x : ℚ) (hx : 0 < x) :
    (10 : ℚ) ^ floor_log10 x ≤ x ∧ x < (10 : ℚ) ^ (floor_log10 x + 1) := by
  have hnpos : 1 ≤ x.num.natAbs := by
    have : 0 < x.num := Rat.num_pos.mpr hx
    omega
  have hp := nat_log10_fuel_spec x.num.natAbs x.num.natAbs le_rfl hnpos
  have hq := nat_log10_fuel_spec x.den x.den le_rfl x.den_pos
  have hb := ratio_pow_bounds 10 (by norm_num) x _ _
    ⟨by exact_mod_cast hp.1, by exact_mod_cast hp.2⟩
    ⟨by exact_mod_cast hq.1, by exact_mod_cast hq.2⟩
  rw [abs_of_pos hx] at hb
  unfold floor_log10
  simp only
  split_ifs with h
  · exact ⟨h, hb.2⟩
  · refine ⟨hb.1.le, ?_⟩
    rw [sub_add_cancel]
    exact not_le.mp h

/-- The evaluable decade exponent is the decade exponent of the exact model. -/
theorem floor_log10_eq_log (x : ℚ) (hx : 0 < x) : floor_log10 x = Int.log 10 x := by
  obtain ⟨hlo, hhi⟩ := floor_log10_bounds x hx
  apply le_antisymm
  · exact (Int.zpow_le_iff_le_log (b := 10) (by norm_num) hx).mp (by exact_mod_cast hlo)
  · have := (Int.lt_zpow_iff_log_lt (b := 10) (by norm_num) (x := floor_log10 x + 1) hx).mp
      (by exact_mod_cast hhi)
    omega

/-- The binary exponent used by the rounding is not above the argument. -/
theorem log2_floor_le (x : ℚ) (hx : x ≠ 0) : (2 : ℚ) ^ log2_floor x ≤ |x| := by
  have hnpos : 1 ≤ x.num.natAbs := by
    have : x.num ≠ 0 := Rat.num_ne_zero.mpr hx
    omega
  have hp := nat_log2_fuel_spec x.num.natAbs x.num.natAbs le_rfl hnpos
  have hq := nat_log2_fuel_spec x.den x.den le_rfl x.den_pos
  have hb := ratio_pow_bounds 2 (by norm_num) x (nat_log2_fuel x.num.natAbs x.num.natAbs)
    (nat_log2_fuel x.den x.den)
    ⟨by exact_mod_cast hp.1, by exact_mod_cast hp.2⟩
    ⟨by exact_mod_cast hq.1, by exact_mod_cast hq.2⟩
  unfold log2_floor
  simp only
  split_ifs with h
  · exact h
  · exact hb.1.le

/-- Rounding to the nearest integer moves a value by at most one half. -/
theorem round_half_even_err (q : ℚ) : |(round_half_even q : ℚ) - q| ≤ 1 / 2 := by
  have h1 := Int.floor_le q
  have h2 := Int.lt_floor_add_one q
  unfold round_half_even
  simp only
  rw [abs_le]
  split_ifs with ha hb hc
  · constructor <;> linarith
  · push_cast; constructor <;> linarith
  · have : q - ⌊q⌋ = 1 / 2 := le_antisymm (not_lt.mp hb) (not_lt.mp ha)
    constructor <;> linarith
  · have : q - ⌊q⌋ = 1 / 2 := le_antisymm (not_lt.mp hb) (not_lt.mp ha)
    push_cast; constructor <;> linarith

/-- Relative error of the rounding in the normal range: half a unit in the last place. -/
theorem fl64_rel_err (y : ℚ) (hy : (2 : ℚ) ^ (-1022 : ℤ) ≤ |y|) :
    |fl64 y - y| ≤ |y| / 2 ^ 53 := by
  have hy0 : y ≠ 0 := by
    intro h
    rw [h, abs_zero] at hy
    have : (0 : ℚ) < 2 ^ (-1022 : ℤ) := by positivity
    linarith
  unfold fl64
  rw [if_neg hy0]
  simp only
  set e := max (log2_floor y) (-1022) with he
  have hulp : (0 : ℚ) < 2 ^ (e - 52) := by positivity
  have hE : (2 : ℚ) ^ e ≤ |y| := by
    rcases max_cases (log2_floor y) (-1022) with ⟨h, -⟩ | ⟨h, -⟩
    · rw [he, h]; exact log2_floor_le y hy0
    · rw [he, h]; exact hy
  have herr := round_half_even_err (y / 2 ^ (e - 52))
  have h3 : (round_half_even (y / 2 ^ (e - 52)) : ℚ) * 2 ^ (e - 52) - y =
      ((round_half_even (y / 2 ^ (e - 52)) : ℚ) - y / 2 ^ (e - 52)) * 2 ^ (e - 52) := by
    field_simp
  rw [h3, abs_mul, abs_of_pos hulp]
  have h4 : (2 : ℚ) ^ (e - 52) = 2 ^ e / 2 ^ 52 := by
    rw [zpow_sub₀ (by norm_num)]; norm_cast
  calc |(round_half_even (y / 2 ^ (e - 52)) : ℚ) - y / 2 ^ (e - 52)| * 2 ^ (e - 52)
      ≤ 1 / 2 * 2 ^ (e - 52) := by
        apply mul_le_mul_of_nonneg_right herr hulp.le
    _ = 2 ^ e / 2 ^ 53 := by rw [h4]; ring
    _ ≤ |y| / 2 ^ 53 := by
        apply div_le_div_of_nonneg_right hE; positivity

/-- The binary64 scan ends with an entry of the table (or the initial one) and the magnitude
unchanged, or in the roll-over branch with mantissa 1 and ten times the magnitude. -/
theorem e24_scan_f64_result (nb : ℚ) : ∀ (l : List ℚ) (i : ℕ) (s : ScanState),
    ((e24_scan_f64 nb i l s).closest_base ∈ l ∨
        (e24_scan_f64 nb i l s).closest_base = s.closest_base) ∧
      (e24_scan_f64 nb i l s).magnitude = s.magnitude ∨
    (e24_scan_f64 nb i l s).closest_base = 1 ∧
      (e24_scan_f64 nb i l s).magnitude = fl64 (s.magnitude * 10) := by
  intro l
  induction l with
  | nil => intro i s; left; exact ⟨Or.inr rfl, rfl⟩
  | cons e rest ih =>
    intro i s
    unfold e24_scan_f64
    simp only
    split_ifs with hbrk hlt
    · right; exact ⟨rfl, rfl⟩
    · rcases ih (i + 1) { s with min_diff := |fl64 (nb - e)|, closest_base := e } with
        ⟨hc, hm⟩ | ⟨hc, hm⟩
      · left
        refine ⟨?_, hm⟩
        rcases hc with hc | hc
        · left; exact List.mem_cons_of_mem _ hc
        · left; rw [hc]; exact List.mem_cons_self _ _
      · right; exact ⟨hc, hm⟩
    · rcases ih (i + 1) s with ⟨hc, hm⟩ | ⟨hc, hm⟩
      · left
        refine ⟨?_, hm⟩
        rcases hc with hc | hc
        · left; exact List.mem_cons_of_mem _ hc
        · right; exact hc
      · right; exact ⟨hc, hm⟩

/-- Product of two approximations: the relative errors add up, with the second-order term. -/
theorem approx_mul (a A b B α β : ℚ) (hA : 0 < A) (hB : 0 < B) (hα : 0 ≤ α)
    (ha : |a - A| ≤ A * α) (hb : |b - B| ≤ B * β) :
    |a * b - A * B| ≤ A * B * (α + β + α * β) := by
  have e : a * b - A * B = (a - A) * B + A * (b - B) + (a - A) * (b - B) := by ring
  rw [e]
  have h1 : |(a - A) * B| ≤ A * α * B := by
    rw [abs_mul, abs_of_pos hB]; exact mul_le_mul_of_nonneg_right ha hB.le
  have h2 : |A * (b - B)| ≤ A * (B * β) := by
    rw [abs_mul, abs_of_pos hA]; exact mul_le_mul_of_nonneg_left hb hA.le
  have h3 : |(a - A) * (b - B)| ≤ A * α * (B * β) := by
    rw [abs_mul]
    exact mul_le_mul ha hb (abs_nonneg _) (by positivity)
  calc |(a - A) * B + A * (b - B) + (a - A) * (b - B)|
      ≤ |(a - A) * B| + |A * (b - B)| + |(a - A) * (b - B)| := abs_add_three _ _ _
    _ ≤ A * α * B + A * (B * β) + A * α * (B * β) := by linarith
    _ = A * B * (α + β + α * β) := by ring

/-- Rounding an approximation of a value in the normal range adds half a unit in the last
place to the relative error. -/
theorem approx_fl64 (y Y ε : ℚ) (hε : ε ≤ 1 / 2)
    (hy : |y - Y| ≤ Y * ε) (hn : (2 : ℚ) ^ (-1021 : ℤ) ≤ Y) :
    |fl64 y - Y| ≤ Y * (ε + (1 + ε) / 2 ^ 53) := by
  have hY : 0 < Y := lt_of_lt_of_le (by positivity) hn
  have hy2 := abs_le.mp hy
  have hylo : Y / 2 ≤ y := by nlinarith
  have hypos : 0 < y := by linarith
  have hnorm : (2 : ℚ) ^ (-1022 : ℤ) ≤ |y| := by
    rw [abs_of_pos hypos]
    have h2 : (2 : ℚ) ^ (-1022 : ℤ) = 2 ^ (-1021 : ℤ) / 2 := by
      rw [show (-1022 : ℤ) = -1021 - 1 by norm_num, zpow_sub_one₀ (by norm_num)]
      ring
    rw [h2]
    exact le_trans (div_le_div_of_nonneg_right hn (by norm_num)) hylo
  have hr := fl64_rel_err y hnorm
  rw [abs_of_pos hypos] at hr
  have hyhi : y ≤ Y * (1 + ε) := by nlinarith
  have e : fl64 y - Y = (fl64 y - y) + (y - Y) := by ring
  rw [e]
  calc |(fl64 y - y) + (y - Y)| ≤ |fl64 y - y| + |y - Y| := abs_add _ _
    _ ≤ y / 2 ^ 53 + Y * ε := by linarith
    _ ≤ Y * (1 + ε) / 2 ^ 53 + Y * ε := by
        have := div_le_div_of_nonneg_right hyhi (by positivity : (0 : ℚ) ≤ 2 ^ 53)
        linarith
    _ = Y * (ε + (1 + ε) / 2 ^ 53) := by ring

/-- Powers of ten from `1e-300` on are in the normal range of binary64. -/
theorem pow_ten_normal (k : ℤ) (hk : -300 ≤ k) : (2 : ℚ) ^ (-1021 : ℤ) ≤ 10 ^ k := by
  have h0 : (10 : ℚ) ^ (300 : ℕ) ≤ 2 ^ (1021 : ℕ) := by
    calc (10 : ℚ) ^ (300 : ℕ) = (10 ^ 3) ^ 100 := by rw [← pow_mul]
      _ ≤ (2 ^ 10) ^ 100 := pow_le_pow_left₀ (by norm_num) (by norm_num) 100
      _ = 2 ^ 1000 := by rw [← pow_mul]
      _ ≤ 2 ^ 1021 := pow_le_pow_right₀ (by norm_num) (by norm_num)
  have h1 : (2 : ℚ) ^ (-1021 : ℤ) ≤ 10 ^ (-300 : ℤ) := by
    rw [zpow_neg, zpow_neg, inv_le_inv₀ (by positivity) (by positivity)]
    have h0z : (10 : ℚ) ^ ((300 : ℕ) : ℤ) ≤ 2 ^ ((1021 : ℕ) : ℤ) := by
      rw [zpow_natCast, zpow_natCast]; exact h0
    exact h0z
  exact le_trans h1 (zpow_le_zpow_right₀ (by norm_num) hk)

/-- In binary64 arithmetic the snapped value is a table entry times a power of ten up to
rounding: for a target between `1e-300` and `1e300` there are an integer `k` and an entry `e`
with the result divided by `10 ^ k` within the relative distance `1e-15` of `e`. -/
theorem find_closest_f64_within_tolerance (x : ℚ) (hlo : (10 : ℚ) ^ (-300 : ℤ) ≤ x)
    (_hhi : x ≤ 10 ^ (300 : ℤ)) :
    ∃ k : ℤ, ∃ e ∈ E24_BASE, |find_closest_e24_resistor_f64 x / 10 ^ k - e| ≤ e / 10 ^ 15 := by
  have hx : 0 < x := lt_of_lt_of_le (by positivity) hlo
  have hk : -300 ≤ floor_log10 x := by
    rw [floor_log10_eq_log x hx]
    exact (Int.zpow_le_iff_le_log (b := 10) (by norm_num) hx).mp (by exact_mod_cast hlo)
  set k0 := floor_log10 x with hk0
  have hP : (0 : ℚ) < 10 ^ k0 := by positivity
  have hPn := pow_ten_normal k0 hk
  have hm : |fl64 ((10 : ℚ) ^ k0) - 10 ^ k0| ≤ 10 ^ k0 * (2 / 10 ^ 16) := by
    have h := approx_fl64 ((10 : ℚ) ^ k0) (10 ^ k0) 0 (by norm_num) (by simp) hPn
    refine le_trans h (mul_le_mul_of_nonneg_left (by norm_num) hP.le)
  unfold find_closest_e24_resistor_f64
  rw [if_neg (not_le.mpr hx)]
  simp only
  rw [← hk0]
  rcases e24_scan_f64_result (fl64 (x / fl64 ((10 : ℚ) ^ k0))) E24_BASE_f64 0
      { closest_base := E24_BASE_f64.getD 0 0, min_diff := 1e9,
        magnitude := fl64 ((10 : ℚ) ^ k0) } with ⟨hc, hmag⟩ | ⟨hc, hmag⟩
  · have hcm : (e24_scan_f64 (fl64 (x / fl64 ((10 : ℚ) ^ k0))) 0 E24_BASE_f64
        { closest_base := E24_BASE_f64.getD 0 0, min_diff := 1e9,
          magnitude := fl64 ((10 : ℚ) ^ k0) }).closest_base ∈ E24_BASE_f64 := by
      rcases hc with hc | hc
      · exact hc
      · rw [hc]
        show E24_BASE_f64.getD 0 0 ∈ E24_BASE_f64
        decide!
    rw [hmag]
    simp only
    obtain ⟨e, he, hec⟩ := List.mem_map.mp hcm
    rw [← hec]
    obtain ⟨he1, he10⟩ := E24_BASE_bounds e he
    have he0 : 0 < e := by linarith
    refine ⟨k0, e, he, ?_⟩
    have hce : |fl64 e - e| ≤ e * (2 / 10 ^ 16) := by
      have h := approx_fl64 e e 0 (by norm_num) (by simp)
        (le_trans (by rw [zpow_neg]; exact inv_le_one_of_one_le₀ (by norm_num)) he1)
      refine le_trans h (mul_le_mul_of_nonneg_left (by norm_num) he0.le)
    have hprod := approx_mul (fl64 e) e (fl64 ((10 : ℚ) ^ k0)) (10 ^ k0) (2 / 10 ^ 16)
      (2 / 10 ^ 16) he0 hP (by norm_num) hce hm
    have hYn : (2 : ℚ) ^ (-1021 : ℤ) ≤ e * 10 ^ k0 := by
      calc (2 : ℚ) ^ (-1021 : ℤ) ≤ 10 ^ k0 := hPn
        _ = 1 * 10 ^ k0 := (one_mul _).symm
        _ ≤ e * 10 ^ k0 := mul_le_mul_of_nonneg_right he1 hP.le
    have hres := approx_fl64 (fl64 e * fl64 ((10 : ℚ) ^ k0)) (e * 10 ^ k0) _ (by norm_num)
      hprod hYn
    have hfin : |fl64 (fl64 e * fl64 ((10 : ℚ) ^ k0)) - e * 10 ^ k0| ≤
        e * 10 ^ k0 * (1 / 10 ^ 15) :=
      le_trans hres (mul_le_mul_of_nonneg_left (by norm_num) (by positivity))
    have e1 : fl64 (fl64 e * fl64 ((10 : ℚ) ^ k0)) / 10 ^ k0 - e =
        (fl64 (fl64 e * fl64 ((10 : ℚ) ^ k0)) - e * 10 ^ k0) / 10 ^ k0 := by
      field_simp
      ring
    rw [e1, abs_div, abs_of_pos hP, div_le_iff₀ hP]
    calc _ ≤ e * 10 ^ k0 * (1 / 10 ^ 15) := hfin
      _ = e / 10 ^ 15 * 10 ^ k0 := by ring
  · rw [hc, hmag]
    simp only
    refine ⟨k0 + 1, 1, ?_, ?_⟩
    · rw [E24_BASE_split]; exact List.mem_cons_self _ _
    have hP1 : (0 : ℚ) < 10 ^ (k0 + 1) := by positivity
    have hpe : (10 : ℚ) ^ (k0 + 1) = 10 ^ k0 * 10 := zpow_add_one₀ (by norm_num) k0
    have hm10 : |fl64 ((10 : ℚ) ^ k0) * 10 - 10 ^ (k0 + 1)| ≤ 10 ^ (k0 + 1) * (2 / 10 ^ 16) := by
      rw [hpe, ← sub_mul, abs_mul, abs_of_pos (by norm_num : (0 : ℚ) < 10)]
      calc |fl64 ((10 : ℚ) ^ k0) - 10 ^ k0| * 10 ≤ 10 ^ k0 * (2 / 10 ^ 16) * 10 :=
            mul_le_mul_of_nonneg_right hm (by norm_num)
        _ = 10 ^ k0 * 10 * (2 / 10 ^ 16) := by ring
    have hPn1 : (2 : ℚ) ^ (-1021 : ℤ) ≤ 10 ^ (k0 + 1) := pow_ten_normal (k0 + 1) (by omega)
    have hm2 := approx_fl64 (fl64 ((10 : ℚ) ^ k0) * 10) (10 ^ (k0 + 1)) _ (by norm_num)
      hm10 hPn1
    have hm3 : |1 * fl64 (fl64 ((10 : ℚ) ^ k0) * 10) - 10 ^ (k0 + 1)| ≤
        10 ^ (k0 + 1) * (4 / 10 ^ 16) := by
      rw [one_mul]
      exact le_trans hm2 (mul_le_mul_of_nonneg_left (by norm_num) hP1.le)
    have hres := approx_fl64 (1 * fl64 (fl64 ((10 : ℚ) ^ k0) * 10)) (10 ^ (k0 + 1)) _
      (by norm_num) hm3 hPn1
    have hfin : |fl64 (1 * fl64 (fl64 ((10 : ℚ) ^ k0) * 10)) - 10 ^ (k0 + 1)| ≤
        10 ^ (k0 + 1) * (1 / 10 ^ 15) :=
      le_trans hres (mul_le_mul_of_nonneg_left (by norm_num) hP1.le)
    have e1 : fl64 (1 * fl64 (fl64 ((10 : ℚ) ^ k0) * 10)) / 10 ^ (k0 + 1) - 1 =
        (fl64 (1 * fl64 (fl64 ((10 : ℚ) ^ k0) * 10)) - 10 ^ (k0 + 1)) / 10 ^ (k0 + 1) := by
      field_simp
    rw [e1, abs_div, abs_of_pos hP1, div_le_iff₀ hP1]
    calc _ ≤ 10 ^ (k0 + 1) * (1 / 10 ^ 15) := hfin
      _ = 1 / 10 ^ 15 * 10 ^ (k0 + 1) := by ring

theorem find_closest_f64_within_tolerance_witness :
    (10 : ℚ) ^ (-300 : ℤ) ≤ 152 / 1000 ∧ (152 / 1000 : ℚ) ≤ 10 ^ (300 : ℤ) ∧
    ∃ k : ℤ, ∃ e ∈ E24_BASE,
      |find_closest_e24_resistor_f64 (152 / 1000) / 10 ^ k - e| ≤ e / 10 ^ 15 := by
  have h1 : (10 : ℚ) ^ (-300 : ℤ) ≤ 152 / 1000 :=
    le_trans (zpow_le_zpow_right₀ (by norm_num) (by norm_num : (-300 : ℤ) ≤ -1)) (by norm_num)
  have h2 : (152 / 1000 : ℚ) ≤ 10 ^ (300 : ℤ) :=
    le_trans (by norm_num) (one_le_zpow₀ (by norm_num) (by norm_num))
  exact ⟨h1, h2, find_closest_f64_within_tolerance (152 / 1000) h1 h2⟩

/-! ### Binary64 arithmetic: gain search -/

/-- The binary64 search at non-inverting gain 100: the candidates 1000 and 5100 tie at 1% in
exact arithmetic; in binary64 the snapped `R2` of 5100 is `509999.99999999994` and its computed
error is strictly smaller, so 1000, the first candidate of the scan, is not the one returned. -/
theorem gain_f64_hundred_tie_broken :
    f64_ops.snap (gain_ideal_ops f64_ops 1 100 1000) = 100000 ∧
    f64_ops.snap (gain_ideal_ops f64_ops 1 100 5100) = 8761733283839999 / 17179869184 ∧
    (gain_eval_ops f64_ops 1 100 1000).best_error = 1 ∧
    (gain_eval_ops f64_ops 1 100 5100).best_error = 70368744177663 / 70368744177664 := by
  decide!

theorem gain_search_ops_first_minimiser_witness :
    (∃ x ∈ gain_r1_list_ops f64_ops E24_BASE_f64, 0 < gain_ideal_ops f64_ops 1 100 x ∧
      (gain_eval_ops f64_ops 1 100 x).best_error < 100) ∧
    ∃ pre r1 post, gain_r1_list_ops f64_ops E24_BASE_f64 = pre ++ r1 :: post ∧
      (∃ e ∈ E24_BASE_f64, ∃ m ∈ multipliers, r1 = f64_ops.mul e m) ∧
      0 < gain_ideal_ops f64_ops 1 100 r1 ∧
      (gain_search_ops f64_ops E24_BASE_f64 1 100).best_r1 = r1 ∧
      (gain_search_ops f64_ops E24_BASE_f64 1 100).best_r2 =
        f64_ops.snap (gain_ideal_ops f64_ops 1 100 r1) ∧
      (gain_search_ops f64_ops E24_BASE_f64 1 100).best_error =
        (gain_eval_ops f64_ops 1 100 r1).best_error ∧
      (∀ x ∈ pre, 0 < gain_ideal_ops f64_ops 1 100 x →
        (gain_eval_ops f64_ops 1 100 r1).best_error <
          (gain_eval_ops f64_ops 1 100 x).best_error) ∧
      (∀ x ∈ post, 0 < gain_ideal_ops f64_ops 1 100 x →
        (gain_eval_ops f64_ops 1 100 r1).best_error ≤
          (gain_eval_ops f64_ops 1 100 x).best_error) := by
  have hmem : (1000 : ℚ) ∈ gain_r1_list_ops f64_ops E24_BASE_f64 :=
    (gain_r1_list_ops_mem f64_ops E24_BASE_f64 1000).mpr
      ⟨1, by decide!, 1000, by decide!, by decide!⟩
  have hex : ∃ x ∈ gain_r1_list_ops f64_ops E24_BASE_f64, 0 < gain_ideal_ops f64_ops 1 100 x ∧
      (gain_eval_ops f64_ops 1 100 x).best_error < 100 :=
    ⟨1000, hmem, by decide!, by decide!⟩
  exact ⟨hex, gain_search_ops_first_minimiser f64_ops E24_BASE_f64 1 100 hex⟩
